import Mathlib

/-!
Verification of the Imagio OCR-preprocessing core (`src-tauri/src`).

The Rust sources are shallowly embedded: images become structures with a
total pixel function, `u8`/`u32`/`u64` arithmetic becomes `ℕ` (with explicit
wrap-around where the Rust code can overflow), and `f32`/`f64` arithmetic on
integer-valued data becomes exact `ℚ` arithmetic.  External crate functions
(`image`, `imageproc`) that are not part of the repository are modelled from
the specification, as marked in their doc comments.

The file is organised as: all definitions first, then all theorems.
-/

set_option maxRecDepth 8000
set_option maxHeartbeats 1000000

namespace Imagio

/-- One RGBA pixel: four 8-bit channels modelled as natural numbers. -/
structure Pix where
  r : ℕ
  g : ℕ
  b : ℕ
  a : ℕ
deriving DecidableEq, Repr

/-- An RGBA image buffer (`image::DynamicImage` in RGBA8 form): dimensions
plus a total pixel function; only coordinates inside the domain matter. -/
structure Image where
  width : ℕ
  height : ℕ
  pix : ℕ → ℕ → Pix

/-- A grayscale buffer (`image::GrayImage`). -/
structure Gray where
  width : ℕ
  height : ℕ
  g : ℕ → ℕ → ℕ

/-- All channels of every in-domain pixel fit into a byte. -/
def Image.Valid (im : Image) : Prop :=
  ∀ x < im.width, ∀ y < im.height,
    (im.pix x y).r ≤ 255 ∧ (im.pix x y).g ≤ 255 ∧ (im.pix x y).b ≤ 255 ∧
      (im.pix x y).a ≤ 255

/-- Every in-domain gray sample fits into a byte. -/
def Gray.Valid (im : Gray) : Prop :=
  ∀ x < im.width, ∀ y < im.height, im.g x y ≤ 255

/-- Modelled from the spec: the `image` crate's luma conversion used by
`to_luma8` ("grayscale value of a pixel is computed on demand (luma
conversion)"); the crate's integer sRGB-luma formula, which maps an
achromatic pixel `(v,v,v)` to exactly `v`. -/
def lumaVal (r g b : ℕ) : ℕ :=
  (2126 * r + 7152 * g + 722 * b) / 10000

/-- `img.to_luma8()`. -/
def toLuma (im : Image) : Gray :=
  ⟨im.width, im.height, fun x y => lumaVal (im.pix x y).r (im.pix x y).g (im.pix x y).b⟩

/-- The 256-bin grayscale histogram built by `calculate_otsu_threshold`:
bin `t` holds the number of in-domain pixels of intensity `t`. -/
def histOf (im : Gray) (t : ℕ) : ℕ :=
  ∑ x ∈ Finset.range im.width, ∑ y ∈ Finset.range im.height,
    if im.g x y = t then 1 else 0

/-- One step of the Kahan-compensated summation in
`calculate_otsu_threshold`, over exact rationals. -/
def kahanStep : ℚ × ℚ → ℚ → ℚ × ℚ
  | (sum, comp), value =>
    let y := value - comp
    let t := sum + y
    (t, (t - sum) - y)

/-- The Kahan-compensated running sum (`sum` after the first loop of
`calculate_otsu_threshold`). -/
def kahanSum (l : List ℚ) : ℚ :=
  (l.foldl kahanStep (0, 0)).1

/-- State of the threshold-search loop in `calculate_otsu_threshold`:
`sum_b`, `w_b`, `max_variance`, `threshold`. -/
structure OtsuState where
  sumB : ℕ
  wB : ℕ
  maxVar : ℚ
  thr : ℕ

/-- The loop body's between-class variance
`w_b * w_f * (m_b - m_f) * (m_b - m_f)` for the (already updated) values of
`sum_b` and `w_b`, where `m_b = sum_b / w_b` and `m_f = (sum - sum_b) / w_f`. -/
def otsuVarQ (sum : ℚ) (sumB wB wF : ℕ) : ℚ :=
  (wB : ℚ) * (wF : ℚ) *
    ((sumB : ℚ) / (wB : ℚ) - (sum - (sumB : ℚ)) / (wF : ℚ)) *
    ((sumB : ℚ) / (wB : ℚ) - (sum - (sumB : ℚ)) / (wF : ℚ))

/-- The threshold-search loop of `calculate_otsu_threshold` over the list of
remaining candidate values `t`.  The `w_b == 0` branch (`continue`) recurses
having only updated `w_b`; the `w_f == 0` branch (`break`) returns the
current state. -/
def otsuGo (hist : ℕ → ℕ) (total : ℕ) (sum : ℚ) :
    List ℕ → OtsuState → OtsuState
  | [], s => s
  | t :: rest, s =>
    if s.wB + hist t = 0 then
      otsuGo hist total sum rest { s with wB := s.wB + hist t }
    else if total - (s.wB + hist t) = 0 then
      { s with wB := s.wB + hist t }
    else if s.maxVar <
        otsuVarQ sum (s.sumB + t * hist t) (s.wB + hist t) (total - (s.wB + hist t)) then
      otsuGo hist total sum rest
        ⟨s.sumB + t * hist t, s.wB + hist t,
          otsuVarQ sum (s.sumB + t * hist t) (s.wB + hist t) (total - (s.wB + hist t)), t⟩
    else
      otsuGo hist total sum rest { s with sumB := s.sumB + t * hist t, wB := s.wB + hist t }

/-- `calculate_otsu_threshold` (binarization/mod.rs, lines 104-156):
histogram, Kahan-compensated weighted sum, then the threshold search. -/
def calculate_otsu_threshold (im : Gray) : ℕ :=
  (otsuGo (histOf im) (im.width * im.height)
    (kahanSum ((List.range 256).map fun (i : ℕ) => (i : ℚ) * (histOf im i : ℚ)))
    (List.range 256) ⟨0, 0, 0, 0⟩).thr

/-- State of the evaluation mirror of the Otsu loop: the running maximum
variance is kept as an unreduced integer fraction `maxN / maxD` so that the
kernel can evaluate the loop (rational normalisation cannot). -/
structure OtsuStateZ where
  sumB : ℕ
  wB : ℕ
  maxN : ℤ
  maxD : ℤ
  thr : ℕ

/-- Numerator of `m_b - m_f` over the common denominator `w_b * w_f`. -/
def otsuDD (sumW sumB wB wF : ℕ) : ℤ :=
  (sumB : ℤ) * (wF : ℤ) - ((sumW : ℤ) - (sumB : ℤ)) * (wB : ℤ)

/-- The common denominator `w_b * w_f` of the mirrored variance fraction. -/
def otsuDen (wB wF : ℕ) : ℤ :=
  (wB : ℤ) * (wF : ℤ)

/-- The variance comparison `max_variance < variance` phrased on the
integer fractions of the evaluation mirror. -/
abbrev otsuCmp (maxN maxD : ℤ) (sumW sumB wB wF : ℕ) : Prop :=
  maxN * otsuDen wB wF < otsuDD sumW sumB wB wF * otsuDD sumW sumB wB wF * maxD

/-- Evaluation mirror of `otsuGo` over integer fractions; proved equivalent
to `otsuGo` in `otsuGo_otsuGoZ`. -/
def otsuGoZ (hist : ℕ → ℕ) (total sumW : ℕ) :
    List ℕ → OtsuStateZ → OtsuStateZ
  | [], s => s
  | t :: rest, s =>
    if s.wB + hist t = 0 then
      otsuGoZ hist total sumW rest { s with wB := s.wB + hist t }
    else if total - (s.wB + hist t) = 0 then
      { s with wB := s.wB + hist t }
    else if otsuCmp s.maxN s.maxD sumW (s.sumB + t * hist t) (s.wB + hist t)
        (total - (s.wB + hist t)) then
      otsuGoZ hist total sumW rest
        ⟨s.sumB + t * hist t, s.wB + hist t,
          otsuDD sumW (s.sumB + t * hist t) (s.wB + hist t) (total - (s.wB + hist t)) *
            otsuDD sumW (s.sumB + t * hist t) (s.wB + hist t) (total - (s.wB + hist t)),
          otsuDen (s.wB + hist t) (total - (s.wB + hist t)), t⟩
    else
      otsuGoZ hist total sumW rest { s with sumB := s.sumB + t * hist t, wB := s.wB + hist t }

/-- Fully evaluable form of `calculate_otsu_threshold` on an explicit
histogram (`total` = pixel count, `sumW` = total weighted intensity). -/
def otsuZ (hist : ℕ → ℕ) (total sumW : ℕ) : ℕ :=
  (otsuGoZ hist total sumW (List.range 256) ⟨0, 0, 0, 1, 0⟩).thr

/-- The weighted intensity total `∑ i * hist i` as an evaluable list sum. -/
def wsumList (hist : ℕ → ℕ) : ℕ :=
  ((List.range 256).map fun i => i * hist i).sum

/-- Cumulative histogram count of intensities strictly below `a`: the value
of `w_b` after the loop has processed `t = 0 .. a-1`. -/
def preCum (hist : ℕ → ℕ) (a : ℕ) : ℕ :=
  ∑ i ∈ Finset.range a, hist i

/-- Cumulative weighted intensity strictly below `a`: the value of `sum_b`
after the loop has processed `t = 0 .. a-1`. -/
def preW (hist : ℕ → ℕ) (a : ℕ) : ℕ :=
  ∑ i ∈ Finset.range a, i * hist i

/-- The spec's candidate condition at threshold `t`: neither the background
class (`w_b`) nor the foreground class (`w_f`) is empty. -/
abbrev otsuCand (hist : ℕ → ℕ) (total t : ℕ) : Prop :=
  preCum hist (t + 1) ≠ 0 ∧ total - preCum hist (t + 1) ≠ 0

/-- The spec's between-class variance
`w_b(t) * w_f(t) * (m_b(t) - m_f(t))^2` with `w_b, w_f` taken as
pixel-count fractions, as the spec's §4.7 defines them. -/
def specVar (hist : ℕ → ℕ) (total t : ℕ) : ℚ :=
  ((preCum hist (t + 1) : ℚ) / (total : ℚ)) *
    (((total - preCum hist (t + 1) : ℕ) : ℚ) / (total : ℚ)) *
    ((preW hist (t + 1) : ℚ) / (preCum hist (t + 1) : ℚ) -
      ((preW hist 256 : ℚ) - (preW hist (t + 1) : ℚ)) /
        ((total - preCum hist (t + 1) : ℕ) : ℚ)) ^ 2

/-- `t` is a candidate achieving the maximum between-class variance over
all candidates. -/
def otsuBestAt (hist : ℕ → ℕ) (total t : ℕ) : Prop :=
  otsuCand hist total t ∧
    ∀ u < 256, otsuCand hist total u →
      specVar hist total u ≤ specVar hist total t

instance (hist : ℕ → ℕ) (total t : ℕ) : Decidable (otsuBestAt hist total t) := by
  unfold otsuBestAt
  infer_instance

/-- The claim's description of the returned Otsu threshold: the smallest
`t ∈ [0,255]` that is a candidate and achieves the maximum between-class
variance over all candidates; `0` when every candidate is skipped. -/
def otsuSpec (hist : ℕ → ℕ) (total : ℕ) : ℕ :=
  ((List.range 256).find? fun t => decide (otsuBestAt hist total t)).getD 0

/-- The unscaled between-class variance the code computes at candidate `t`
(with `w_b, w_f` as absolute counts). -/
def codeVar (hist : ℕ → ℕ) (total t : ℕ) : ℚ :=
  otsuVarQ ((preW hist 256 : ℚ)) (preW hist (t + 1)) (preCum hist (t + 1))
    (total - preCum hist (t + 1))

/-- One accumulator step of the running strict maximum together with the
first index attaining it. -/
def foldStep (v : ℕ → ℚ) (p : ℚ × ℕ) (t : ℕ) : ℚ × ℕ :=
  if p.1 < v t then (v t, t) else p

/-- The candidates in increasing order. -/
def candList (hist : ℕ → ℕ) (total : ℕ) : List ℕ :=
  (List.range 256).filter fun t => decide (otsuCand hist total t)

/-- The synthetic bimodal image of C1: 1000 pixels at intensity 50 followed
by 1000 pixels at intensity 200, in one row. -/
def imgC1 : Gray :=
  ⟨2000, 1, fun x _ => if x < 1000 then 50 else 200⟩

/-- Closed form of the histogram of `imgC1`. -/
def histC1fun (t : ℕ) : ℕ :=
  if t = 50 then 1000 else if t = 200 then 1000 else 0

/-- `u32` wrap-around subtraction (Rust release-mode `a - b` on `u32`,
for `a, b < 2^32`). -/
def u32sub (a b : ℕ) : ℕ :=
  (a + 2 ^ 32 - b) % 2 ^ 32

/-- The coordinates visited by `(window..dim - window).step_by(5)` in the
noise-sampling loop of `assess_image_quality` (`window = 3`,
`sample_step = 5`): every 5th value from 3 up to `dim - 3` exclusive. -/
def noiseCoords (dim : ℕ) : List ℕ :=
  (List.range ((dim - 3 - 3 + 4) / 5)).map fun i => 3 + 5 * i

/-- The divisor `samples = ((height - 2*window) / sample_step) *
((width - 2*window) / sample_step)` of `assess_image_quality`, computed in
`u32` arithmetic: the subtractions wrap around on underflow and the product
wraps modulo `2^32`. -/
def noiseSamplesDiv (width height : ℕ) : ℕ :=
  (u32sub height 6 / 5) * (u32sub width 6 / 5) % 2 ^ 32

/-- Sum of the 7×7 window around `(x, y)` (no clamping: the sampling loops
keep the window in bounds). -/
def noiseWindowSum (im : Gray) (x y : ℕ) : ℚ :=
  ∑ dy ∈ Finset.Icc (-3 : ℤ) 3, ∑ dx ∈ Finset.Icc (-3 : ℤ) 3,
    ((im.g ((x : ℤ) + dx).toNat ((y : ℤ) + dy).toNat : ℕ) : ℚ)

/-- Sum of squares of the 7×7 window around `(x, y)`. -/
def noiseWindowSqSum (im : Gray) (x y : ℕ) : ℚ :=
  ∑ dy ∈ Finset.Icc (-3 : ℤ) 3, ∑ dx ∈ Finset.Icc (-3 : ℤ) 3,
    ((im.g ((x : ℤ) + dx).toNat ((y : ℤ) + dy).toNat : ℕ) : ℚ) ^ 2

/-- The local variance `local_sq_sum / count - local_mean^2` of one noise
sample (`count = 49`). -/
def noiseLocalVar (im : Gray) (x y : ℕ) : ℚ :=
  noiseWindowSqSum im x y / 49 - (noiseWindowSum im x y / 49) ^ 2

/-- `noise_sum`: the summed local standard deviations over all samples;
`sq` abstracts `f32::sqrt`. -/
def noiseSum (sq : ℚ → ℚ) (im : Gray) : ℚ :=
  ((noiseCoords im.height).map fun y =>
    ((noiseCoords im.width).map fun x => sq (noiseLocalVar im x y)).sum).sum

/-- The reported `noise_level = (noise_sum / samples as f32).min(100.0)`.
When the divisor is zero the Rust division yields `NaN` (or `+inf`), and
`f32::min` then returns the other operand, `100.0`; the zero-divisor branch
models exactly that. -/
def noiseLevel (sq : ℚ → ℚ) (im : Gray) : ℚ :=
  if noiseSamplesDiv im.width im.height = 0 then 100
  else min (noiseSum sq im / (noiseSamplesDiv im.width im.height : ℚ)) 100

/-- `ImageQualityMetrics` (quality/mod.rs). -/
structure ImageQualityMetrics where
  blur_score : ℚ
  contrast_score : ℚ
  noise_level : ℚ
  brightness_level : ℚ

/-- `ProcessingParams` (ocr/mod.rs).  The `f32` fields are modelled as
exact rationals. -/
structure ProcessingParams where
  contrast : ℚ
  brightness : ℚ
  sharpness : ℚ
  binarization_method : String
  use_clahe : Bool
  gaussian_blur : ℚ
  bilateral_filter : Bool
  morphology : String
  language : String
  correct_skew : Bool
  skew_method : String
  remove_borders : Bool
  adaptive_mode : Bool

/-- Step 1 of `adaptive_preprocess`: handle blurry images. -/
def deriveSharpness (m : ImageQualityMetrics) (p : ProcessingParams) : ProcessingParams :=
  if m.blur_score < 30 then { p with sharpness := 2 }
  else if m.blur_score < 50 then { p with sharpness := 3 / 2 }
  else p

/-- Step 2 of `adaptive_preprocess`: handle low contrast. -/
def deriveContrast (m : ImageQualityMetrics) (p : ProcessingParams) : ProcessingParams :=
  if m.contrast_score < 40 then { p with use_clahe := true, contrast := 3 / 2 }
  else if m.contrast_score < 60 then { p with contrast := 13 / 10 }
  else p

/-- Step 3 of `adaptive_preprocess`: handle noisy images. -/
def deriveNoise (m : ImageQualityMetrics) (p : ProcessingParams) : ProcessingParams :=
  if 20 < m.noise_level then { p with bilateral_filter := true, morphology := "opening" }
  else if 12 < m.noise_level then { p with gaussian_blur := 1 }
  else p

/-- Step 4 of `adaptive_preprocess`: handle brightness issues.  The code
assigns the constants `0.2` and `-0.1` outright (`params.brightness = 0.2`),
it does not increment the base value.  (The `f32` literals are modelled as
exact rationals; only their sign and absolute assignment matter here.) -/
def deriveBrightness (m : ImageQualityMetrics) (p : ProcessingParams) : ProcessingParams :=
  if m.brightness_level < 80 then { p with brightness := 1 / 5 }
  else if 200 < m.brightness_level then { p with brightness := -1 / 10 }
  else p

/-- Step 5 of `adaptive_preprocess`: choose the binarization method. -/
def deriveBinarization (m : ImageQualityMetrics) (p : ProcessingParams) : ProcessingParams :=
  if m.brightness_level < 100 ∨ 180 < m.brightness_level then
    (if p.binarization_method ≠ "none" then { p with binarization_method := "sauvola" } else p)
  else if p.binarization_method = "none" then { p with binarization_method := "otsu" }
  else p

/-- The parameter-derivation phase of `adaptive_preprocess`
(ocr/mod.rs, lines 242-305): copy the base parameters with
`adaptive_mode := false`, then apply the five override blocks in order. -/
def adaptiveDerive (m : ImageQualityMetrics) (base : ProcessingParams) : ProcessingParams :=
  deriveBinarization m (deriveBrightness m (deriveNoise m
    (deriveContrast m (deriveSharpness m { base with adaptive_mode := false }))))

/-- Modelled from the spec: imageproc `threshold(gray, t, ThresholdType::Binary)`
— "pixels with intensity greater than the threshold map to 255, else 0". -/
def thresholdBin (g : Gray) (t : ℕ) : Gray :=
  ⟨g.width, g.height, fun x y => if t < g.g x y then 255 else 0⟩

/-- The output-copy loop every binarization/CLAHE/morphology routine ends
with: replicate the gray value into R, G, B with alpha 255. -/
def grayToRgba (g : Gray) : Image :=
  ⟨g.width, g.height, fun x y => ⟨g.g x y, g.g x y, g.g x y, 255⟩⟩

/-- Clamped coordinate access `(v).clamp(0, n - 1)` (as in the Sauvola and
bilateral loops). -/
def clampCoord (v : ℤ) (n : ℕ) : ℕ :=
  (max 0 (min v ((n : ℤ) - 1))).toNat

/-- Sum of the clamped 15×15 window around `(x, y)` (`window_size = 15`,
`half_window = 7`); the `f32` accumulation of byte values is exact. -/
def winSumN (g : Gray) (x y : ℕ) : ℕ :=
  ∑ dy ∈ Finset.Icc (-7 : ℤ) 7, ∑ dx ∈ Finset.Icc (-7 : ℤ) 7,
    g.g (clampCoord ((x : ℤ) + dx) g.width) (clampCoord ((y : ℤ) + dy) g.height)

/-- Sum of squares of the clamped 15×15 window around `(x, y)`. -/
def winSqSumN (g : Gray) (x y : ℕ) : ℕ :=
  ∑ dy ∈ Finset.Icc (-7 : ℤ) 7, ∑ dx ∈ Finset.Icc (-7 : ℤ) 7,
    g.g (clampCoord ((x : ℤ) + dx) g.width) (clampCoord ((y : ℤ) + dy) g.height) *
      g.g (clampCoord ((x : ℤ) + dx) g.width) (clampCoord ((y : ℤ) + dy) g.height)

/-- The local window mean `sum / count` (`count = 225`). -/
def winMean (g : Gray) (x y : ℕ) : ℚ :=
  (winSumN g x y : ℚ) / 225

/-- The local window variance `sq_sum / count - mean * mean`. -/
def winVar (g : Gray) (x y : ℕ) : ℚ :=
  (winSqSumN g x y : ℚ) / 225 - winMean g x y * winMean g x y

/-- The Sauvola threshold `mean * (1 + k * ((std_dev / r) - 1))` with
`k = 0.5`, `r = 128`; `sq` abstracts `f32::sqrt`. -/
def sauvolaThreshAt (sq : ℚ → ℚ) (g : Gray) (x y : ℕ) : ℚ :=
  winMean g x y * (1 + 1 / 2 * (sq (winVar g x y) / 128 - 1))

/-- The grayscale Sauvola classification: 255 where the pixel value
strictly exceeds its local threshold, else 0. -/
def sauvolaBinGray (sq : ℚ → ℚ) (g : Gray) : Gray :=
  ⟨g.width, g.height, fun x y =>
    if sauvolaThreshAt sq g x y < (g.g x y : ℚ) then 255 else 0⟩

/-- `apply_sauvola_threshold` (binarization/mod.rs, lines 199-247). -/
def sauvolaImage (sq : ℚ → ℚ) (im : Image) : Image :=
  grayToRgba (sauvolaBinGray sq (toLuma im))

def apply_sauvola_threshold (sq : ℚ → ℚ) (im : Image) : Except String Image :=
  .ok (sauvolaImage sq im)

/-- Modelled from the spec: the external imageproc `adaptive_threshold`
with block size 15 — "pixel classified relative to a statistic of its
local neighborhood — implementer must pick one consistent convention,
e.g. mean-based, and hold it fixed".  We fix the spec's suggested
mean-based convention with the same clamped 15×15 window and the same
strictly-greater rule as the repository's other binarizers. -/
def adaptiveBinGray (g : Gray) : Gray :=
  ⟨g.width, g.height, fun x y => if winMean g x y < (g.g x y : ℚ) then 255 else 0⟩

/-- `apply_adaptive_threshold` (binarization/mod.rs, lines 23-37). -/
def adaptiveImage (im : Image) : Image :=
  grayToRgba (adaptiveBinGray (toLuma im))

def apply_adaptive_threshold (im : Image) : Except String Image :=
  .ok (adaptiveImage im)

/-- `apply_otsu_threshold` (binarization/mod.rs, lines 75-93). -/
def otsuImage (im : Image) : Image :=
  grayToRgba (thresholdBin (toLuma im) (calculate_otsu_threshold (toLuma im)))

def apply_otsu_threshold (im : Image) : Except String Image :=
  .ok (otsuImage im)

/-- The mean threshold of `apply_mean_threshold`: `u64` sum of the gray
values divided (integer division) by the pixel count. -/
def meanOf (g : Gray) : ℕ :=
  (∑ x ∈ Finset.range g.width, ∑ y ∈ Finset.range g.height, g.g x y) /
    (g.width * g.height)

/-- `apply_mean_threshold` (binarization/mod.rs, lines 167-187). -/
def meanImage (im : Image) : Image :=
  grayToRgba (thresholdBin (toLuma im) (meanOf (toLuma im)))

def apply_mean_threshold (im : Image) : Except String Image :=
  .ok (meanImage im)

/-- Pure black and pure white RGBA pixels. -/
def blackPix : Pix := ⟨0, 0, 0, 255⟩

def whitePix : Pix := ⟨255, 255, 255, 255⟩

/-- A gray buffer is binary when every sample (at any coordinate of the
total model) is 0 or 255. -/
def Gray.Binary (g : Gray) : Prop :=
  ∀ x y, g.g x y = 0 ∨ g.g x y = 255

/-- The gray row used by the C6 counterexample: one 255, seven 254s,
seven 0s. -/
def vC6 (x : ℕ) : ℕ :=
  if x = 0 then 255 else if x < 8 then 254 else 0

/-- The 15×1 counterexample image for adaptive-threshold idempotence. -/
def imgC6 : Image :=
  ⟨15, 1, fun x _ => ⟨vC6 x, vC6 x, vC6 x, 255⟩⟩

/-- Its grayscale view. -/
def gC6 : Gray :=
  ⟨15, 1, fun x _ => vC6 x⟩

/-- Horizontal projection: the exact (unbounded) sum of the gray values
in row `y`. -/
def hProj (g : Gray) (y : ℕ) : ℕ :=
  ∑ x ∈ Finset.range g.width, g.g x y

/-- Vertical projection: the exact (unbounded) sum of the gray values in
column `x`. -/
def vProj (g : Gray) (x : ℕ) : ℕ :=
  ∑ y ∈ Finset.range g.height, g.g x y

/-- The stored `u32` row projection `h_proj[y]`: the per-pixel `+=`
accumulation wraps mod 2^32, so the final value is the exact sum mod
2^32. -/
def hProj32 (g : Gray) (y : ℕ) : ℕ :=
  hProj g y % 2 ^ 32

/-- The stored `u32` column projection `v_proj[x]`. -/
def vProj32 (g : Gray) (x : ℕ) : ℕ :=
  vProj g x % 2 ^ 32

/-- The row content threshold over unbounded naturals; it coincides with
the code's `u32` one whenever `width * 255 < 2^32`. -/
def hThreshold (g : Gray) : ℕ :=
  g.width * 255 / 10

/-- The column content threshold over unbounded naturals. -/
def vThreshold (g : Gray) : ℕ :=
  g.height * 255 / 10

/-- `h_threshold = (width * 255 / 10) as u32`: the `u32` multiplication
wraps mod 2^32 before the division. -/
def hThreshold32 (g : Gray) : ℕ :=
  g.width * 255 % 2 ^ 32 / 10

/-- `v_threshold = (height * 255 / 10) as u32`. -/
def vThreshold32 (g : Gray) : ℕ :=
  g.height * 255 % 2 ^ 32 / 10

/-- The claim's exact content condition for a row: the projection sum
exceeds 10% of 255 times the row length. -/
def specContentRow (g : Gray) (y : ℕ) : Prop :=
  (255 : ℚ) * g.width / 10 < (hProj g y : ℚ)

/-- The claim's exact content condition for a column. -/
def specContentCol (g : Gray) (x : ℕ) : Prop :=
  (255 : ℚ) * g.height / 10 < (vProj g x : ℚ)

/-- `position(|&v| v > h_threshold).unwrap_or(0)`, over the stored `u32`
values. -/
def topIdx (g : Gray) : ℕ :=
  ((List.range g.height).find? fun y => decide (hThreshold32 g < hProj32 g y)).getD 0

/-- `rposition(|&v| v > h_threshold).unwrap_or(height - 1)`. -/
def bottomIdx (g : Gray) : ℕ :=
  ((List.range g.height).reverse.find? fun y => decide (hThreshold32 g < hProj32 g y)).getD
    (g.height - 1)

/-- `position(|&v| v > v_threshold).unwrap_or(0)`. -/
def leftIdx (g : Gray) : ℕ :=
  ((List.range g.width).find? fun x => decide (vThreshold32 g < vProj32 g x)).getD 0

/-- `rposition(|&v| v > v_threshold).unwrap_or(width - 1)`. -/
def rightIdx (g : Gray) : ℕ :=
  ((List.range g.width).reverse.find? fun x => decide (vThreshold32 g < vProj32 g x)).getD
    (g.width - 1)

/-- `margin_x = (width / 50).max(2)`. -/
def marginX (g : Gray) : ℕ :=
  max (g.width / 50) 2

/-- `margin_y = (height / 50).max(2)`. -/
def marginY (g : Gray) : ℕ :=
  max (g.height / 50) 2

/-- `crop_left = (left - margin_x).max(0)` over `i32`, i.e. truncated
subtraction. -/
def cropLeft (g : Gray) : ℕ :=
  leftIdx g - marginX g

def cropTop (g : Gray) : ℕ :=
  topIdx g - marginY g

/-- `crop_right = (right + margin_x).min(width - 1)`. -/
def cropRight (g : Gray) : ℕ :=
  min (rightIdx g + marginX g) (g.width - 1)

def cropBottom (g : Gray) : ℕ :=
  min (bottomIdx g + marginY g) (g.height - 1)

/-- `img.crop_imm(l, t, w, h)`: the `w`×`h` subview at offset `(l, t)`. -/
def cropImm (im : Image) (l t w h : ℕ) : Image :=
  ⟨w, h, fun x y => im.pix (l + x) (t + y)⟩

/-- `remove_borders` (preprocessing/geometric.rs, lines 207-270); the
skip test `crop_width * crop_height > width * height * 95 / 100` is
computed entirely in `u32`, so each multiplication wraps mod 2^32. -/
def remove_borders (im : Image) : Image :=
  if im.width * im.height % 2 ^ 32 * 95 % 2 ^ 32 / 100 <
      (cropRight (toLuma im) - cropLeft (toLuma im)) *
        (cropBottom (toLuma im) - cropTop (toLuma im)) % 2 ^ 32 then
    im
  else
    cropImm im (cropLeft (toLuma im)) (cropTop (toLuma im))
      (cropRight (toLuma im) - cropLeft (toLuma im))
      (cropBottom (toLuma im) - cropTop (toLuma im))

/-- The column profile of the C7 counterexample image: white in the left
3900 columns, black elsewhere. -/
def vC7 (x : ℕ) : ℕ :=
  if x < 3900 then 255 else 0

/-- The 48-megapixel C7 counterexample: an 8000×6000 buffer whose content
occupies the left 3900 columns; its `width * height * 95` exceeds 2^32. -/
def imC7 : Image :=
  ⟨8000, 6000, fun x _ => ⟨vC7 x, vC7 x, vC7 x, 255⟩⟩

/-- Its grayscale view. -/
def gC7 : Gray :=
  ⟨8000, 6000, fun x _ => vC7 x⟩

/-- A concrete 1×1 white image used by witnesses. -/
def imW : Image :=
  ⟨1, 1, fun _ _ => ⟨255, 255, 255, 255⟩⟩

/-- A concrete square-root stub satisfying the abstract-sqrt hypotheses,
used only by witnesses. -/
def sqW : ℚ → ℚ := fun _ => 0

/-- A concrete 30×30 all-white image (every row and column is content). -/
def imW30 : Image :=
  ⟨30, 30, fun _ _ => ⟨255, 255, 255, 255⟩⟩

/-- The `f32 as u8` conversion used when writing a channel back: truncation
toward zero, saturated into `[0, 255]`; exact on the integer values the
theorems evaluate it at (a preceding `clamp(0.0, 255.0)` makes no
difference then). -/
def toU8 (q : ℚ) : ℕ :=
  Int.toNat (min ⌊q⌋ 255)

/-- Modelled from the spec: `rotate_about_center` with bilinear
interpolation and a fill color.  The trigonometric source-coordinate
computation is abstracted into a sampling scheme that gives, for each
output pixel, finitely many in-bounds source samples with weights plus a
weight for the fill color; the output channel is the weighted average,
converted back to a byte. -/
structure RotScheme where
  samples : ℕ → ℕ → List (ℚ × ℕ × ℕ)
  fillW : ℕ → ℕ → ℚ

/-- A proper sampling scheme for a `w`×`h` source: the weights (samples
plus fill) sum to 1 and all source coordinates are in bounds. -/
def RotScheme.Proper (sch : RotScheme) (w h : ℕ) : Prop :=
  ∀ x y, ((sch.samples x y).map fun s => s.1).sum + sch.fillW x y = 1 ∧
    ∀ s ∈ sch.samples x y, s.2.1 < w ∧ s.2.2 < h

/-- One interpolated channel of the rotated image. -/
def rotChan (sch : RotScheme) (im : Image) (chan : Pix → ℕ) (fill : ℕ) (x y : ℕ) : ℚ :=
  ((sch.samples x y).map fun s => s.1 * (chan (im.pix s.2.1 s.2.2) : ℚ)).sum +
    sch.fillW x y * (fill : ℚ)

/-- The rotated RGBA image (same dimensions, as with
`rotate_about_center`). -/
def rotateModel (sch : RotScheme) (fill : Pix) (im : Image) : Image :=
  ⟨im.width, im.height, fun x y =>
    ⟨toU8 (rotChan sch im Pix.r fill.r x y), toU8 (rotChan sch im Pix.g fill.g x y),
     toU8 (rotChan sch im Pix.b fill.b x y), toU8 (rotChan sch im Pix.a fill.a x y)⟩⟩

/-- The rotated grayscale image (used by the projection-profile deskew). -/
def rotateGrayModel (sch : RotScheme) (fill : ℕ) (g : Gray) : Gray :=
  ⟨g.width, g.height, fun x y =>
    toU8 (((sch.samples x y).map fun s => s.1 * (g.g s.2.1 s.2.2 : ℚ)).sum +
      sch.fillW x y * (fill : ℚ))⟩

/-- The fill-only sampling scheme (used by witnesses). -/
def rotW : ℚ → RotScheme := fun _ => ⟨fun _ _ => [], fun _ _ => 1⟩

/-- The angle normalization of `correct_skew` (geometric.rs, lines 56-63):
subtract 90 from angles in (45, 135), 180 from angles at or above 135. -/
def normalizeAngle (theta : ℚ) : ℚ :=
  if 45 < theta ∧ theta < 135 then theta - 90
  else if 135 ≤ theta then theta - 180
  else theta

/-- The surviving normalized angles (geometric.rs, lines 53-69): each
detected line's integer degree angle is normalized, and kept only when its
absolute value is strictly below 45. -/
def skewAngles (lines : List ℕ) : List ℚ :=
  (lines.map fun (t : ℕ) => normalizeAngle (t : ℚ)).filter fun a => decide (|a| < 45)

/-- `correct_skew` (geometric.rs, lines 24-105), with the external
Canny+Hough line detector abstracted as `lineDetect` (returning the
detected `angle_in_degrees` values) and the external rotation abstracted
as an angle-indexed sampling scheme. -/
def correct_skew (lineDetect : Image → List ℕ) (rot : ℚ → RotScheme)
    (im : Image) : Except String Image :=
  if lineDetect im = [] then .ok im
  else if skewAngles (lineDetect im) = [] then .ok im
  else if |(skewAngles (lineDetect im)).sum / ((skewAngles (lineDetect im)).length : ℚ)| <
      1 / 2 then .ok im
  else .ok (rotateModel
    (rot (-((skewAngles (lineDetect im)).sum / ((skewAngles (lineDetect im)).length : ℚ))))
    whitePix im)

/-- `(value).clamp(0.0, 255.0)`. -/
def clamp255 (q : ℚ) : ℚ :=
  max 0 (min q 255)

/-- `adjust_brightness` (preprocessing/adjustments.rs, lines 13-29): each
color channel gets `brightness * 255` added, clamped; alpha is copied. -/
def adjust_brightness (im : Image) (b : ℚ) : Image :=
  ⟨im.width, im.height, fun x y =>
    ⟨toU8 (clamp255 (((im.pix x y).r : ℚ) + b * 255)),
     toU8 (clamp255 (((im.pix x y).g : ℚ) + b * 255)),
     toU8 (clamp255 (((im.pix x y).b : ℚ) + b * 255)),
     (im.pix x y).a⟩⟩

/-- `adjust_contrast` (adjustments.rs, lines 39-56):
`(v - 128) * contrast + 128`, clamped; alpha is copied. -/
def adjust_contrast (im : Image) (c : ℚ) : Image :=
  ⟨im.width, im.height, fun x y =>
    ⟨toU8 (clamp255 ((((im.pix x y).r : ℚ) - 128) * c + 128)),
     toU8 (clamp255 ((((im.pix x y).g : ℚ) - 128) * c + 128)),
     toU8 (clamp255 ((((im.pix x y).b : ℚ) - 128) * c + 128)),
     (im.pix x y).a⟩⟩

/-- One sharpened color channel: `center + amount * (center - avg)` where
`avg` is the 4-neighbour mean. -/
def sharpChan (im : Image) (amount : ℚ) (chan : Pix → ℕ) (x y : ℕ) : ℕ :=
  toU8 (clamp255 ((chan (im.pix x y) : ℚ) +
    amount * ((chan (im.pix x y) : ℚ) -
      ((chan (im.pix (x - 1) y) : ℚ) + (chan (im.pix (x + 1) y) : ℚ) +
        (chan (im.pix x (y - 1)) : ℚ) + (chan (im.pix x (y + 1)) : ℚ)) / 4)))

/-- `adjust_sharpness` (adjustments.rs, lines 66-119): unsharp mask with
`amount = (sharpness - 1) * 2` on the interior, the one-pixel border copied
from the input; `sharpness ≤ 0` returns a clone. -/
def adjust_sharpness (im : Image) (s : ℚ) : Image :=
  if s ≤ 0 then im
  else
    ⟨im.width, im.height, fun x y =>
      if 1 ≤ x ∧ x < im.width - 1 ∧ 1 ≤ y ∧ y < im.height - 1 then
        ⟨sharpChan im ((s - 1) * 2) Pix.r x y, sharpChan im ((s - 1) * 2) Pix.g x y,
         sharpChan im ((s - 1) * 2) Pix.b x y, toU8 (((im.pix x y).a : ℚ))⟩
      else im.pix x y⟩

/-- `apply_gaussian_blur` (preprocessing/filters.rs, lines 13-53): the
external per-channel `gaussian_blur_f32` is abstracted as `blurC`; the
final loop copies the alpha channel from the input. -/
def apply_gaussian_blur (blurC : ℚ → (ℕ → ℕ → ℕ) → (ℕ → ℕ → ℕ))
    (im : Image) (sigma : ℚ) : Image :=
  ⟨im.width, im.height, fun x y =>
    ⟨blurC sigma (fun a b => (im.pix a b).r) x y,
     blurC sigma (fun a b => (im.pix a b).g) x y,
     blurC sigma (fun a b => (im.pix a b).b) x y,
     (im.pix x y).a⟩⟩

/-- The bilateral weight sum over the clamped radius-5 window; `wfn dx dy
center neighbor` abstracts the product of the spatial and color Gaussian
weights (both are strictly positive exponentials). -/
def bilatWeightSum (wfn : ℤ → ℤ → Pix → Pix → ℚ) (im : Image) (x y : ℕ) : ℚ :=
  ∑ dy ∈ Finset.Icc (-5 : ℤ) 5, ∑ dx ∈ Finset.Icc (-5 : ℤ) 5,
    wfn dx dy (im.pix x y)
      (im.pix (clampCoord ((x : ℤ) + dx) im.width) (clampCoord ((y : ℤ) + dy) im.height))

/-- The weighted channel sum of the bilateral filter. -/
def bilatChanSum (wfn : ℤ → ℤ → Pix → Pix → ℚ) (im : Image) (chan : Pix → ℕ)
    (x y : ℕ) : ℚ :=
  ∑ dy ∈ Finset.Icc (-5 : ℤ) 5, ∑ dx ∈ Finset.Icc (-5 : ℤ) 5,
    (chan (im.pix (clampCoord ((x : ℤ) + dx) im.width)
        (clampCoord ((y : ℤ) + dy) im.height)) : ℚ) *
      wfn dx dy (im.pix x y)
        (im.pix (clampCoord ((x : ℤ) + dx) im.width) (clampCoord ((y : ℤ) + dy) im.height))

/-- `apply_bilateral_filter` (filters.rs, lines 65-117): each channel
(alpha included) is the weight-normalised window sum, cast back to `u8`. -/
def apply_bilateral_filter (wfn : ℤ → ℤ → Pix → Pix → ℚ) (im : Image) : Image :=
  ⟨im.width, im.height, fun x y =>
    ⟨toU8 (bilatChanSum wfn im Pix.r x y / bilatWeightSum wfn im x y),
     toU8 (bilatChanSum wfn im Pix.g x y / bilatWeightSum wfn im x y),
     toU8 (bilatChanSum wfn im Pix.b x y / bilatWeightSum wfn im x y),
     toU8 (bilatChanSum wfn im Pix.a x y / bilatWeightSum wfn im x y)⟩⟩

/-- Modelled from the spec (§4.5): global histogram equalization — remap
each pixel's luma through the cumulative distribution of the 256-bin
histogram (the `equalize_histogram` call is external imageproc code). -/
def eqLuma (g : Gray) (v : ℕ) : ℕ :=
  255 * preCum (histOf g) (v + 1) / (g.width * g.height)

/-- `apply_clahe` (binarization/mod.rs, lines 48-63). -/
def apply_clahe (im : Image) : Except String Image :=
  .ok (grayToRgba ⟨im.width, im.height, fun x y =>
    eqLuma (toLuma im) ((toLuma im).g x y)⟩)

/-- The clamped 3×3 neighbourhood values. -/
def morphVals (g : Gray) (x y : ℕ) : List ℕ :=
  ((List.range 3).map fun dy => (List.range 3).map fun dx =>
    g.g (clampCoord ((x : ℤ) + dx - 1) g.width)
      (clampCoord ((y : ℤ) + dy - 1) g.height)).flatten

/-- Modelled from the spec (§4.6): erosion = pixel-wise minimum over the
3×3 structuring element (the `erode` call is external imageproc code). -/
def erodeG (g : Gray) : Gray :=
  ⟨g.width, g.height, fun x y => (morphVals g x y).foldl min 255⟩

/-- Modelled from the spec (§4.6): dilation = pixel-wise maximum over the
3×3 structuring element. -/
def dilateG (g : Gray) : Gray :=
  ⟨g.width, g.height, fun x y => (morphVals g x y).foldl max 0⟩

/-- `apply_erosion` (morphology/mod.rs, lines 23-36). -/
def apply_erosion (im : Image) : Image :=
  grayToRgba (erodeG (toLuma im))

/-- `apply_dilation` (morphology/mod.rs, lines 48-61). -/
def apply_dilation (im : Image) : Image :=
  grayToRgba (dilateG (toLuma im))

/-- `apply_opening` (morphology/mod.rs, lines 73-87). -/
def apply_opening (im : Image) : Image :=
  grayToRgba (dilateG (erodeG (toLuma im)))

/-- `apply_closing` (morphology/mod.rs, lines 99-113). -/
def apply_closing (im : Image) : Image :=
  grayToRgba (erodeG (dilateG (toLuma im)))

/-- The per-row ink count of the projection-profile deskew. -/
def projCount (g : Gray) (y : ℕ) : ℕ :=
  ∑ x ∈ Finset.range g.width, if g.g x y = 0 then 1 else 0

/-- The variance of the row ink counts. -/
def projVar (g : Gray) : ℚ :=
  (∑ y ∈ Finset.range g.height,
    ((projCount g y : ℚ) - (∑ z ∈ Finset.range g.height, (projCount g z : ℚ)) / g.height) ^ 2) /
    g.height

/-- The best-angle search of `correct_skew_projection`: angles −10.0° to
10.0° in 0.1° steps, keeping the first strict maximum of the projection
variance. -/
def projBest (rotG : ℚ → RotScheme) (binary : Gray) : ℚ × ℚ :=
  ((List.range 201).map fun k => ((k : ℚ) - 100) / 10).foldl
    (fun st angle =>
      if st.1 < projVar (rotateGrayModel (rotG angle) 255 binary) then
        (projVar (rotateGrayModel (rotG angle) 255 binary), angle)
      else st)
    (0, 0)

/-- `correct_skew_projection` (geometric.rs, lines 117-196), with the
external rotations abstracted as angle-indexed sampling schemes (`rotG`
for the binary image, `rot` for the final color rotation). -/
def correct_skew_projection (rotG rot : ℚ → RotScheme) (im : Image) :
    Except String Image :=
  if |(projBest rotG (thresholdBin (toLuma im) (calculate_otsu_threshold (toLuma im)))).2| <
      3 / 10 then
    .ok im
  else
    .ok (rotateModel
      (rot (-(projBest rotG (thresholdBin (toLuma im)
        (calculate_otsu_threshold (toLuma im)))).2))
      whitePix im)

/-- `u32` wrap-around multiplication. -/
def u32mul (a b : ℕ) : ℕ :=
  a * b % 2 ^ 32

/-- The Laplacian response at an interior pixel. -/
def lapAt (g : Gray) (x y : ℕ) : ℚ :=
  8 * (g.g x y : ℚ) -
    ((g.g (x - 1) (y - 1) : ℚ) + (g.g x (y - 1) : ℚ) + (g.g (x + 1) (y - 1) : ℚ) +
     (g.g (x - 1) y : ℚ) + (g.g (x + 1) y : ℚ) +
     (g.g (x - 1) (y + 1) : ℚ) + (g.g x (y + 1) : ℚ) + (g.g (x + 1) (y + 1) : ℚ))

/-- The summed squared Laplacian responses over the interior. -/
def lapSum (g : Gray) : ℚ :=
  ∑ y ∈ Finset.Ico 1 (g.height - 1), ∑ x ∈ Finset.Ico 1 (g.width - 1),
    lapAt g x y * lapAt g x y

/-- The `(width - 2) * (height - 2)` divisor in `u32` arithmetic. -/
def blurDivisor (g : Gray) : ℕ :=
  u32mul (u32sub g.width 2) (u32sub g.height 2)

/-- `blur_score = (laplacian_var / 1000).min(100)`; a zero divisor makes
the Rust division produce NaN (or +inf), which `.min(100.0)` maps to 100. -/
def blurScore (g : Gray) : ℚ :=
  if blurDivisor g = 0 then 100
  else min (lapSum g / blurDivisor g / 1000) 100

/-- The exact grayscale sum. -/
def graySum (g : Gray) : ℕ :=
  ∑ x ∈ Finset.range g.width, ∑ y ∈ Finset.range g.height, g.g x y

/-- The exact grayscale square sum. -/
def graySqSum (g : Gray) : ℕ :=
  ∑ x ∈ Finset.range g.width, ∑ y ∈ Finset.range g.height, g.g x y * g.g x y

/-- `mean`, the reported brightness level (the degenerate 0-pixel case,
NaN in Rust, is modelled as 0; no claim depends on it). -/
def grayMean (g : Gray) : ℚ :=
  (graySum g : ℚ) / (g.width * g.height : ℕ)

/-- `contrast_score = (std_dev / 2.55).min(100)`; `sq` abstracts
`f32::sqrt`. -/
def contrastScore (sq : ℚ → ℚ) (g : Gray) : ℚ :=
  min (sq ((graySqSum g : ℚ) / (g.width * g.height : ℕ) - grayMean g * grayMean g) /
    (51 / 20)) 100

/-- `assess_image_quality` (quality/mod.rs, lines 36-114). -/
def assess_image_quality (sq : ℚ → ℚ) (im : Image) : ImageQualityMetrics :=
  ⟨blurScore (toLuma im), contrastScore sq (toLuma im), noiseLevel sq (toLuma im),
    grayMean (toLuma im)⟩

/-- The external collaborators of the pipeline, abstracted: the Canny+Hough
line detector, the color and grayscale rotations, the per-channel Gaussian
blur, the bilateral weight function, and `f32::sqrt`. -/
structure ExternalOps where
  lineDetect : Image → List ℕ
  rot : ℚ → RotScheme
  rotG : ℚ → RotScheme
  blurC : ℚ → (ℕ → ℕ → ℕ) → (ℕ → ℕ → ℕ)
  bilatW : ℤ → ℤ → Pix → Pix → ℚ
  sq : ℚ → ℚ

/-- Step 2 of `preprocess_image`: skew correction (with `?`). -/
def skewStage (ext : ExternalOps) (params : ProcessingParams) (im : Image) :
    Except String Image :=
  if params.correct_skew then
    (if params.skew_method = "projection" then correct_skew_projection ext.rotG ext.rot im
     else correct_skew ext.lineDetect ext.rot im)
  else .ok im

/-- Steps 3-5 of `preprocess_image`: noise reduction (bilateral takes
precedence over Gaussian), brightness, contrast, sharpness. -/
def filterToneStages (ext : ExternalOps) (params : ProcessingParams) (im : Image) : Image :=
  let p3 := if params.bilateral_filter then apply_bilateral_filter ext.bilatW im
    else if 0 < params.gaussian_blur then apply_gaussian_blur ext.blurC im params.gaussian_blur
    else im
  let p4 := if params.brightness ≠ 0 then adjust_brightness p3 params.brightness else p3
  let p5 := if params.contrast ≠ 1 then adjust_contrast p4 params.contrast else p4
  if 1 < params.sharpness then adjust_sharpness p5 params.sharpness else p5

/-- Step 6 of `preprocess_image`: CLAHE (with `?`). -/
def claheStage (params : ProcessingParams) (im : Image) : Except String Image :=
  if params.use_clahe then apply_clahe im else .ok im

/-- Step 7 of `preprocess_image`: morphology; unrecognized strings fall
through to a no-op. -/
def morphStage (params : ProcessingParams) (im : Image) : Image :=
  match params.morphology with
  | "erode" => apply_erosion im
  | "dilate" => apply_dilation im
  | "opening" => apply_opening im
  | "closing" => apply_closing im
  | _ => im

/-- Step 8 of `preprocess_image`: binarization (always last, with `?`);
unrecognized strings fall through to a no-op. -/
def binarizationStage (ext : ExternalOps) (params : ProcessingParams) (im : Image) :
    Except String Image :=
  match params.binarization_method with
  | "adaptive" => apply_adaptive_threshold im
  | "otsu" => apply_otsu_threshold im
  | "mean" => apply_mean_threshold im
  | "sauvola" => apply_sauvola_threshold ext.sq im
  | _ => .ok im

/-- `preprocess_image` (ocr/mod.rs, lines 62-224): border removal, skew
correction, filtering and tone, CLAHE, morphology, binarization; the `?`
operators are modelled by explicit matches on the fallible stages. -/
def preprocess_image (ext : ExternalOps) (im : Image) (params : ProcessingParams) :
    Except String Image :=
  match skewStage ext params (if params.remove_borders then remove_borders im else im) with
  | .error e => .error e
  | .ok p2 =>
    match claheStage params (filterToneStages ext params p2) with
    | .error e => .error e
    | .ok p7 => binarizationStage ext params (morphStage params p7)

/-- `adaptive_preprocess` (ocr/mod.rs, lines 230-308): assess quality,
derive override parameters (with `adaptive_mode := false`), then run the
standard pipeline. -/
def adaptive_preprocess (ext : ExternalOps) (im : Image) (base : ProcessingParams) :
    Except String Image :=
  preprocess_image ext im (adaptiveDerive (assess_image_quality ext.sq im) base)

/-- The base parameters used as the C4 counterexample: brightness 0.5. -/
def baseC4 : ProcessingParams :=
  ⟨1, 1 / 2, 1, "none", false, 0, false, "none", "eng", false, "hough", false, true⟩

/-- Metrics of a dark image (brightness 50) that trigger no other
override. -/
def metricsC4 : ImageQualityMetrics :=
  ⟨100, 100, 0, 50⟩

/-- Metrics of a very bright image (brightness 250) that trigger no other
override. -/
def metricsC4b : ImageQualityMetrics :=
  ⟨100, 100, 0, 250⟩

/-- The subsystem's alpha invariant: every pixel has alpha exactly 255. -/
def AlphaOK (im : Image) : Prop :=
  ∀ x y, (im.pix x y).a = 255

/-- A concrete strictly positive bilateral weight function (used by
witnesses). -/
def wfnW : ℤ → ℤ → Pix → Pix → ℚ := fun _ _ _ _ => 1

/-- Concrete external collaborators (used by witnesses): no detected
lines, fill-only rotations, identity blur, constant bilateral weights,
and the square-root stub. -/
def extW : ExternalOps :=
  ⟨fun _ => [], rotW, rotW, fun _ c => c, wfnW, sqW⟩

section Theorems

lemma kahan_foldl (l : List ℚ) (s : ℚ) :
    l.foldl kahanStep (s, 0) = (s + l.sum, 0) := by
  induction l generalizing s with
  | nil => simp
  | cons a l ih =>
    have hstep : kahanStep (s, 0) a = (s + a, 0) := by
      simp only [kahanStep]
      rw [Prod.mk.injEq]
      constructor <;> ring
    rw [List.foldl_cons, hstep, ih, List.sum_cons, add_assoc]

lemma kahanSum_eq (l : List ℚ) : kahanSum l = l.sum := by
  rw [kahanSum, kahan_foldl, zero_add]

lemma listSum_map_range_eq {M : Type} [AddCommMonoid M] (f : ℕ → M) (n : ℕ) :
    ((List.range n).map f).sum = ∑ i ∈ Finset.range n, f i := by
  induction n with
  | zero => simp
  | succ n ih =>
    rw [List.range_succ, List.map_append, List.sum_append, Finset.sum_range_succ, ih]
    simp

/-- Relation between the rational Otsu state and its integer-fraction
mirror. -/
def OtsuRel (z : OtsuStateZ) (s : OtsuState) : Prop :=
  z.sumB = s.sumB ∧ z.wB = s.wB ∧ z.thr = s.thr ∧ 0 < z.maxD ∧
    (z.maxN : ℚ) / (z.maxD : ℚ) = s.maxVar

lemma otsuDen_pos (wB wF : ℕ) (hB : wB ≠ 0) (hF : wF ≠ 0) :
    0 < otsuDen wB wF := by
  unfold otsuDen
  exact_mod_cast Nat.mul_pos (Nat.pos_of_ne_zero hB) (Nat.pos_of_ne_zero hF)

lemma otsuVarQ_eq_frac (sumW sumB wB wF : ℕ) (hB : wB ≠ 0) (hF : wF ≠ 0) :
    otsuVarQ ((sumW : ℚ)) sumB wB wF =
      ((otsuDD sumW sumB wB wF * otsuDD sumW sumB wB wF : ℤ) : ℚ) /
        ((otsuDen wB wF : ℤ) : ℚ) := by
  have hBQ : ((wB : ℚ)) ≠ 0 := Nat.cast_ne_zero.mpr hB
  have hFQ : ((wF : ℚ)) ≠ 0 := Nat.cast_ne_zero.mpr hF
  unfold otsuVarQ otsuDD otsuDen
  push_cast
  field_simp
  ring

lemma otsuCmp_iff (maxN maxD : ℤ) (maxVar : ℚ) (sumW sumB wB wF : ℕ)
    (hB : wB ≠ 0) (hF : wF ≠ 0) (hD : 0 < maxD)
    (hV : (maxN : ℚ) / (maxD : ℚ) = maxVar) :
    (maxVar < otsuVarQ ((sumW : ℚ)) sumB wB wF) ↔
      otsuCmp maxN maxD sumW sumB wB wF := by
  have hDenQ : (0 : ℚ) < ((otsuDen wB wF : ℤ) : ℚ) := by
    exact_mod_cast otsuDen_pos wB wF hB hF
  rw [← hV, otsuVarQ_eq_frac sumW sumB wB wF hB hF,
    div_lt_div_iff₀ (by exact_mod_cast hD) hDenQ]
  constructor
  · intro h
    exact_mod_cast h
  · intro h
    exact_mod_cast h

lemma otsuGo_otsuGoZ (hist : ℕ → ℕ) (total sumW : ℕ) (l : List ℕ)
    (z : OtsuStateZ) (s : OtsuState) (hrel : OtsuRel z s) :
    OtsuRel (otsuGoZ hist total sumW l z)
      (otsuGo hist total ((sumW : ℚ)) l s) := by
  induction l generalizing z s with
  | nil => simpa [otsuGo, otsuGoZ]
  | cons t rest ih =>
    obtain ⟨hsB, hwB, hthr, hD, hV⟩ := hrel
    rw [otsuGo, otsuGoZ, ← hsB, ← hwB]
    by_cases h0 : z.wB + hist t = 0
    · rw [if_pos h0, if_pos h0]
      exact ih _ _ ⟨rfl, rfl, hthr, hD, hV⟩
    · rw [if_neg h0, if_neg h0]
      by_cases hF : total - (z.wB + hist t) = 0
      · rw [if_pos hF, if_pos hF]
        exact ⟨rfl, rfl, hthr, hD, hV⟩
      · rw [if_neg hF, if_neg hF]
        have hvar := otsuVarQ_eq_frac sumW (z.sumB + t * hist t) (z.wB + hist t)
          (total - (z.wB + hist t)) h0 hF
        have hcmp := otsuCmp_iff z.maxN z.maxD s.maxVar sumW (z.sumB + t * hist t)
          (z.wB + hist t) (total - (z.wB + hist t)) h0 hF hD hV
        by_cases hlt : otsuCmp z.maxN z.maxD sumW (z.sumB + t * hist t)
            (z.wB + hist t) (total - (z.wB + hist t))
        · rw [if_pos hlt, if_pos (hcmp.mpr hlt)]
          refine ih _ _ ⟨rfl, rfl, rfl, ?_, hvar.symm⟩
          exact otsuDen_pos _ _ h0 hF
        · rw [if_neg hlt, if_neg (fun hc => hlt (hcmp.mp hc))]
          exact ih _ _ ⟨rfl, rfl, hthr, hD, hV⟩

/-- `calculate_otsu_threshold` agrees with its integer evaluation mirror. -/
lemma calculate_otsu_eq_otsuZ (im : Gray) :
    calculate_otsu_threshold im =
      otsuZ (histOf im) (im.width * im.height) (wsumList (histOf im)) := by
  unfold calculate_otsu_threshold otsuZ
  have hsum : kahanSum ((List.range 256).map fun (i : ℕ) => (i : ℚ) * (histOf im i : ℚ)) =
      ((wsumList (histOf im) : ℕ) : ℚ) := by
    rw [kahanSum_eq, listSum_map_range_eq, wsumList, listSum_map_range_eq]
    push_cast
    ring
  rw [hsum]
  have h := otsuGo_otsuGoZ (histOf im) (im.width * im.height)
    (wsumList (histOf im)) (List.range 256)
    ⟨0, 0, 0, 1, 0⟩ ⟨0, 0, 0, 0⟩ ⟨rfl, rfl, rfl, one_pos, by norm_num⟩
  exact h.2.2.1.symm

lemma histOf_imgC1 : histOf imgC1 = histC1fun := by
  funext t
  unfold histOf imgC1 histC1fun
  simp only [Finset.sum_range_one]
  rw [Finset.range_eq_Ico, ← Finset.sum_Ico_consecutive _ (Nat.zero_le 1000) (by norm_num)]
  have h1 : ∑ x ∈ Finset.Ico 0 1000,
      (if (if x < 1000 then (50 : ℕ) else 200) = t then 1 else 0) =
      ∑ _x ∈ Finset.Ico 0 1000, (if (50 : ℕ) = t then 1 else 0) := by
    refine Finset.sum_congr rfl fun x hx => ?_
    rw [if_pos (Finset.mem_Ico.mp hx).2]
  have h2 : ∑ x ∈ Finset.Ico 1000 2000,
      (if (if x < 1000 then (50 : ℕ) else 200) = t then 1 else 0) =
      ∑ _x ∈ Finset.Ico 1000 2000, (if (200 : ℕ) = t then 1 else 0) := by
    refine Finset.sum_congr rfl fun x hx => ?_
    have hx1000 : ¬ x < 1000 := by
      have := (Finset.mem_Ico.mp hx).1
      omega
    rw [if_neg hx1000]
  rw [h1, h2]
  simp only [Finset.sum_const, Nat.card_Ico, smul_eq_mul]
  by_cases h50 : t = 50 <;> by_cases h200 : t = 200 <;>
    simp [h50, h200, eq_comm]

lemma preCum_succ (hist : ℕ → ℕ) (a : ℕ) :
    preCum hist (a + 1) = preCum hist a + hist a := by
  unfold preCum
  rw [Finset.sum_range_succ]

lemma preW_succ (hist : ℕ → ℕ) (a : ℕ) :
    preW hist (a + 1) = preW hist a + a * hist a := by
  unfold preW
  rw [Finset.sum_range_succ]

lemma preCum_mono (hist : ℕ → ℕ) {a b : ℕ} (h : a ≤ b) :
    preCum hist a ≤ preCum hist b := by
  unfold preCum
  exact Finset.sum_le_sum_of_subset (Finset.range_subset.mpr h)

/-- On a valid grayscale image the histogram counts every pixel exactly
once: the cumulative count through bin 255 is the pixel count. -/
lemma hist_total (im : Gray) (hv : im.Valid) :
    preCum (histOf im) 256 = im.width * im.height := by
  unfold preCum histOf
  rw [Finset.sum_comm]
  have hrow : ∀ x ∈ Finset.range im.width,
      (∑ i ∈ Finset.range 256, ∑ y ∈ Finset.range im.height,
        if im.g x y = i then 1 else 0) = im.height := by
    intro x hx
    rw [Finset.sum_comm]
    have hone : ∀ y ∈ Finset.range im.height,
        (∑ i ∈ Finset.range 256, if im.g x y = i then (1 : ℕ) else 0) = 1 := by
      intro y hy
      rw [Finset.sum_ite_eq]
      rw [if_pos]
      exact Finset.mem_range.mpr
        (Nat.lt_succ_of_le (hv x (Finset.mem_range.mp hx) y (Finset.mem_range.mp hy)))
    rw [Finset.sum_congr rfl hone, Finset.sum_const, Finset.card_range, smul_eq_mul, mul_one]
  rw [Finset.sum_congr rfl hrow, Finset.sum_const, Finset.card_range, smul_eq_mul]

/-- Invariant of the Otsu threshold-search loop: having processed
`t = 0 .. a-1`, the state holds the running cumulative sums and the first
maximum over the candidates below `a`; running the loop over the remaining
values yields the first maximum over all candidates. -/
lemma otsuGo_inv (hist : ℕ → ℕ) (total : ℕ) (b : ℕ) :
    ∀ a s, a + b = 256 →
      s.wB = preCum hist a →
      s.sumB = preW hist a →
      (s.maxVar, s.thr) =
        List.foldl (foldStep (codeVar hist total)) (0, 0)
          ((List.range a).filter fun t => decide (otsuCand hist total t)) →
      ((otsuGo hist total ((preW hist 256 : ℚ)) (List.range' a b) s).maxVar,
        (otsuGo hist total ((preW hist 256 : ℚ)) (List.range' a b) s).thr) =
        List.foldl (foldStep (codeVar hist total)) (0, 0) (candList hist total) := by
  induction b with
  | zero =>
    intro a s hab hwB hsB hacc
    have ha : a = 256 := by omega
    subst ha
    simpa [otsuGo, candList] using hacc
  | succ b ih =>
    intro a s hab hwB hsB hacc
    rw [List.range'_succ, otsuGo]
    have hwB1 : s.wB + hist a = preCum hist (a + 1) := by
      rw [preCum_succ, hwB]
    have hsB1 : s.sumB + a * hist a = preW hist (a + 1) := by
      rw [preW_succ, hsB]
    by_cases h0 : s.wB + hist a = 0
    · rw [if_pos h0]
      have hca : preCum hist (a + 1) = 0 := by omega
      have hha : hist a = 0 := by
        have := preCum_succ hist a
        omega
      have hnc : ¬ otsuCand hist total a := by
        intro hc
        exact hc.1 hca
      refine ih (a + 1) _ (by omega) ?_ ?_ ?_
      · exact hwB1
      · show s.sumB = preW hist (a + 1)
        rw [preW_succ, hha, Nat.mul_zero, Nat.add_zero, hsB]
      · rw [List.range_succ, List.filter_append, List.filter_cons, List.filter_nil]
        rw [if_neg (by simpa using hnc)]
        simpa using hacc
    · rw [if_neg h0]
      by_cases hFz : total - (s.wB + hist a) = 0
      · rw [if_pos hFz]
        have hsplit : List.range 256 = List.range a ++ List.range' a (b + 1) := by
          have h := List.range'_append 0 a (b + 1) 1
          simp only [Nat.zero_add, Nat.one_mul] at h
          rw [List.range_eq_range', List.range_eq_range', h]
          congr 1
          omega
        have hnone : ∀ t ∈ List.range' a (b + 1),
            ¬ otsuCand hist total t := by
          intro t ht
          have hat : a ≤ t := by
            have := List.mem_range'_1.mp ht
            omega
          intro hcand
          have h1 : total ≤ preCum hist (a + 1) := by omega
          have h2 : preCum hist (a + 1) ≤ preCum hist (t + 1) := preCum_mono _ (by omega)
          exact hcand.2 (by omega)
        have hnil : List.filter (fun t => decide (otsuCand hist total t))
            (List.range' a (b + 1)) = [] := by
          refine List.filter_eq_nil_iff.mpr ?_
          intro t ht
          simpa using hnone t ht
        rw [candList, hsplit, List.filter_append, hnil, List.append_nil]
        exact hacc
      · rw [if_neg hFz]
        have hcand : otsuCand hist total a := by
          constructor
          · omega
          · rw [← hwB1]
            exact hFz
        have hfilter : ((List.range (a + 1)).filter fun t => decide (otsuCand hist total t)) =
            ((List.range a).filter fun t => decide (otsuCand hist total t)) ++ [a] := by
          rw [List.range_succ, List.filter_append, List.filter_cons, List.filter_nil]
          rw [if_pos (by simpa using hcand)]
        have hvarC : otsuVarQ ((preW hist 256 : ℚ)) (s.sumB + a * hist a) (s.wB + hist a)
            (total - (s.wB + hist a)) = codeVar hist total a := by
          rw [codeVar, hsB1, hwB1]
        rw [hvarC]
        by_cases hlt : s.maxVar < codeVar hist total a
        · rw [if_pos hlt]
          refine ih (a + 1) _ (by omega) ?_ ?_ ?_
          · exact hwB1
          · exact hsB1
          · rw [hfilter, List.foldl_append, ← hacc]
            show ((codeVar hist total a, a) : ℚ × ℕ) =
              foldStep (codeVar hist total) (s.maxVar, s.thr) a
            rw [foldStep, if_pos hlt]
        · rw [if_neg hlt]
          refine ih (a + 1) _ (by omega) ?_ ?_ ?_
          · exact hwB1
          · exact hsB1
          · rw [hfilter, List.foldl_append, ← hacc]
            show ((s.maxVar, s.thr) : ℚ × ℕ) =
              foldStep (codeVar hist total) (s.maxVar, s.thr) a
            rw [foldStep, if_neg hlt]

/-- Folding the strict-max update over a strictly increasing list either
leaves the accumulator untouched (no element beats it) or returns the value
and index of the first element attaining the maximum. -/
lemma foldStep_cases (v : ℕ → ℚ) :
    ∀ L : List ℕ, L.Pairwise (· < ·) → ∀ acc : ℚ × ℕ,
      (List.foldl (foldStep v) acc L = acc ∧ ∀ t ∈ L, v t ≤ acc.1) ∨
      (∃ r ∈ L, List.foldl (foldStep v) acc L = (v r, r) ∧ acc.1 < v r ∧
        (∀ t ∈ L, v t ≤ v r) ∧ (∀ t ∈ L, t < r → v t < v r)) := by
  intro L
  induction L with
  | nil =>
    intro _ acc
    exact Or.inl ⟨rfl, by simp⟩
  | cons a L ih =>
    intro hsort acc
    have hpw := List.pairwise_cons.mp hsort
    have hhead : ∀ t ∈ L, a < t := hpw.1
    rw [List.foldl_cons]
    by_cases hlt : acc.1 < v a
    · have hstep : foldStep v acc a = (v a, a) := by
        rw [foldStep, if_pos hlt]
      rw [hstep]
      rcases ih hpw.2 (v a, a) with ⟨heq, hle⟩ | ⟨r, hr, heq, hacc, hmax, hfirst⟩
      · refine Or.inr ⟨a, List.mem_cons_self a L, heq, hlt, ?_, ?_⟩
        · intro t ht
          rcases List.mem_cons.mp ht with rfl | ht
          · exact le_refl _
          · exact hle t ht
        · intro t ht htr
          rcases List.mem_cons.mp ht with rfl | ht
          · omega
          · exact absurd htr (by have := hhead t ht; omega)
      · refine Or.inr ⟨r, List.mem_cons_of_mem a hr, heq, lt_trans hlt hacc, ?_, ?_⟩
        · intro t ht
          rcases List.mem_cons.mp ht with rfl | ht
          · exact le_of_lt hacc
          · exact hmax t ht
        · intro t ht htr
          rcases List.mem_cons.mp ht with rfl | ht
          · exact hacc
          · exact hfirst t ht htr
    · have hstep : foldStep v acc a = acc := by
        rw [foldStep, if_neg hlt]
      rw [hstep]
      have hva : v a ≤ acc.1 := not_lt.mp hlt
      rcases ih hpw.2 acc with ⟨heq, hle⟩ | ⟨r, hr, heq, hacc, hmax, hfirst⟩
      · refine Or.inl ⟨heq, ?_⟩
        intro t ht
        rcases List.mem_cons.mp ht with rfl | ht
        · exact hva
        · exact hle t ht
      · refine Or.inr ⟨r, List.mem_cons_of_mem a hr, heq, hacc, ?_, ?_⟩
        · intro t ht
          rcases List.mem_cons.mp ht with rfl | ht
          · exact le_trans hva (le_of_lt hacc)
          · exact hmax t ht
        · intro t ht htr
          rcases List.mem_cons.mp ht with rfl | ht
          · exact lt_of_le_of_lt hva hacc
          · exact hfirst t ht htr

lemma find?_range'_eq_some (p : ℕ → Bool) (m : ℕ) :
    ∀ s r, s ≤ r → r < s + m → p r = true →
      (∀ t, s ≤ t → t < r → p t = false) →
      (List.range' s m).find? p = some r := by
  induction m with
  | zero =>
    intro s r h1 h2 _ _
    exact absurd h2 (by omega)
  | succ m ih =>
    intro s r h1 h2 hp hmin
    rw [List.range'_succ]
    by_cases hs : s = r
    · subst hs
      exact List.find?_cons_of_pos _ hp
    · have hps : p s = false := hmin s (le_refl s) (by omega)
      rw [List.find?_cons_of_neg _ (by simp [hps])]
      exact ih (s + 1) r (by omega) (by omega) hp (fun t ha hb => hmin t (by omega) hb)

lemma find?_range_eq_some (p : ℕ → Bool) (n r : ℕ) (hr : r < n) (hp : p r = true)
    (hmin : ∀ t < r, p t = false) : (List.range n).find? p = some r := by
  rw [List.range_eq_range']
  exact find?_range'_eq_some p n 0 r (Nat.zero_le r) (by omega) hp
    (fun t _ hb => hmin t hb)

/-- The spec's fraction-weighted variance is the code's count-weighted
variance scaled by the (positive) constant `1 / total²`. -/
lemma specVar_scale (hist : ℕ → ℕ) (total t : ℕ) (hT : total ≠ 0) :
    specVar hist total t = codeVar hist total t / ((total : ℚ) * (total : ℚ)) := by
  have hTQ : ((total : ℚ)) ≠ 0 := Nat.cast_ne_zero.mpr hT
  unfold specVar codeVar otsuVarQ
  set d : ℚ := (preW hist (t + 1) : ℚ) / (preCum hist (t + 1) : ℚ) -
    ((preW hist 256 : ℚ) - (preW hist (t + 1) : ℚ)) /
      ((total - preCum hist (t + 1) : ℕ) : ℚ) with hd
  rw [sq]
  field_simp
  ring

/-- Every candidate's between-class variance is strictly positive: the
background mean is at most `t` while the foreground mean is at least
`t + 1`. -/
lemma codeVar_pos (hist : ℕ → ℕ) (total t : ℕ) (htot : preCum hist 256 = total)
    (ht : t < 256) (hc : otsuCand hist total t) : 0 < codeVar hist total t := by
  obtain ⟨h1, h2⟩ := hc
  have hcum : 0 < preCum hist (t + 1) := Nat.pos_of_ne_zero h1
  have hwfn : 0 < total - preCum hist (t + 1) := Nat.pos_of_ne_zero h2
  have hWle : preW hist (t + 1) ≤ t * preCum hist (t + 1) := by
    unfold preW preCum
    rw [Finset.mul_sum]
    refine Finset.sum_le_sum ?_
    intro i hi
    exact Nat.mul_le_mul_right _ (by have := Finset.mem_range.mp hi; omega)
  have hsplitW : preW hist 256 =
      preW hist (t + 1) + ∑ i ∈ Finset.Ico (t + 1) 256, i * hist i := by
    unfold preW
    simp only [Finset.range_eq_Ico]
    exact (Finset.sum_Ico_consecutive _ (Nat.zero_le (t + 1)) (by omega)).symm
  have hsplitC : total =
      preCum hist (t + 1) + ∑ i ∈ Finset.Ico (t + 1) 256, hist i := by
    rw [← htot]
    unfold preCum
    simp only [Finset.range_eq_Ico]
    exact (Finset.sum_Ico_consecutive _ (Nat.zero_le (t + 1)) (by omega)).symm
  have hXge : (t + 1) * (∑ i ∈ Finset.Ico (t + 1) 256, hist i) ≤
      ∑ i ∈ Finset.Ico (t + 1) 256, i * hist i := by
    rw [Finset.mul_sum]
    refine Finset.sum_le_sum ?_
    intro i hi
    exact Nat.mul_le_mul_right _ (Finset.mem_Ico.mp hi).1
  have hcQ : (0 : ℚ) < (preCum hist (t + 1) : ℚ) := by exact_mod_cast hcum
  have hwQ : (0 : ℚ) < ((total - preCum hist (t + 1) : ℕ) : ℚ) := by exact_mod_cast hwfn
  have hmb : (preW hist (t + 1) : ℚ) / (preCum hist (t + 1) : ℚ) ≤ (t : ℚ) := by
    rw [div_le_iff₀ hcQ]
    exact_mod_cast hWle
  have hXc : total - preCum hist (t + 1) = ∑ i ∈ Finset.Ico (t + 1) 256, hist i := by
    omega
  have key : (t + 1) * (total - preCum hist (t + 1)) + preW hist (t + 1) ≤
      preW hist 256 := by
    rw [hXc, hsplitW, Nat.add_comm (preW hist (t + 1))]
    exact Nat.add_le_add_right hXge _
  have hmf : ((t : ℚ) + 1) ≤
      ((preW hist 256 : ℚ) - (preW hist (t + 1) : ℚ)) /
        ((total - preCum hist (t + 1) : ℕ) : ℚ) := by
    rw [le_div_iff₀ hwQ]
    have keyQ : ((t : ℚ) + 1) * ((total - preCum hist (t + 1) : ℕ) : ℚ) +
        (preW hist (t + 1) : ℚ) ≤ (preW hist 256 : ℚ) := by
      exact_mod_cast key
    linarith
  have hd : (preW hist (t + 1) : ℚ) / (preCum hist (t + 1) : ℚ) -
      ((preW hist 256 : ℚ) - (preW hist (t + 1) : ℚ)) /
        ((total - preCum hist (t + 1) : ℕ) : ℚ) < 0 := by
    linarith
  unfold codeVar otsuVarQ
  exact mul_pos_of_neg_of_neg (mul_neg_of_pos_of_neg (mul_pos hcQ hwQ) hd) hd

/-- The threshold `calculate_otsu_threshold` returns is the second
component of the strict-max fold over the candidate list. -/
lemma calculate_eq_foldCand (im : Gray) :
    calculate_otsu_threshold im =
      (List.foldl (foldStep (codeVar (histOf im) (im.width * im.height))) (0, 0)
        (candList (histOf im) (im.width * im.height))).2 := by
  unfold calculate_otsu_threshold
  have hsum : kahanSum ((List.range 256).map fun (i : ℕ) => (i : ℚ) * (histOf im i : ℚ)) =
      ((preW (histOf im) 256 : ℕ) : ℚ) := by
    rw [kahanSum_eq, listSum_map_range_eq]
    unfold preW
    push_cast
    ring
  rw [hsum]
  have h := otsuGo_inv (histOf im) (im.width * im.height) 256 0 ⟨0, 0, 0, 0⟩
    (by omega) (by simp [preCum]) (by simp [preW]) (by simp)
  rw [← List.range_eq_range'] at h
  exact congrArg Prod.snd h

/-- `calculate_otsu_threshold` computes the spec's first-maximum
threshold. -/
lemma otsu_char (im : Gray) (hv : im.Valid) :
    calculate_otsu_threshold im = otsuSpec (histOf im) (im.width * im.height) := by
  have htot : preCum (histOf im) 256 = im.width * im.height := hist_total im hv
  rw [calculate_eq_foldCand im]
  by_cases hC : candList (histOf im) (im.width * im.height) = []
  · rw [hC]
    unfold otsuSpec
    have hfind : (List.range 256).find?
        (fun t => decide (otsuBestAt (histOf im) (im.width * im.height) t)) = none := by
      rw [List.find?_eq_none]
      intro t ht
      simp only [decide_eq_true_eq]
      intro hbest
      have hmem : t ∈ candList (histOf im) (im.width * im.height) :=
        List.mem_filter.mpr ⟨ht, by simpa using hbest.1⟩
      rw [hC] at hmem
      exact absurd hmem (List.not_mem_nil t)
    rw [hfind]
    rfl
  · have hsort : (candList (histOf im) (im.width * im.height)).Pairwise (· < ·) :=
      List.Pairwise.filter _ (List.pairwise_lt_range 256)
    rcases foldStep_cases (codeVar (histOf im) (im.width * im.height)) _ hsort (0, 0) with
      ⟨heq, hle⟩ | ⟨r, hr, heq, hacc, hmax, hfirst⟩
    · obtain ⟨c, hc⟩ := List.exists_mem_of_ne_nil _ hC
      have hcmem := List.mem_filter.mp hc
      have hcand : otsuCand (histOf im) (im.width * im.height) c := by simpa using hcmem.2
      have hlt256 : c < 256 := List.mem_range.mp hcmem.1
      have hpos := codeVar_pos (histOf im) (im.width * im.height) c htot hlt256 hcand
      have hle0 := hle c hc
      simp only at hle0
      linarith
    · rw [heq]
      have hrmem := List.mem_filter.mp hr
      have hr256 : r < 256 := List.mem_range.mp hrmem.1
      have hrcand : otsuCand (histOf im) (im.width * im.height) r := by
        have h2 := hrmem.2
        simp only [decide_eq_true_eq] at h2
        exact h2
      have hTne : im.width * im.height ≠ 0 := fun h0 => hrcand.2 (by omega)
      have hTQ : (0 : ℚ) < ((im.width * im.height : ℕ) : ℚ) := by
        exact_mod_cast Nat.pos_of_ne_zero hTne
      have hT2 : (0 : ℚ) <
          ((im.width * im.height : ℕ) : ℚ) * ((im.width * im.height : ℕ) : ℚ) :=
        mul_pos hTQ hTQ
      have hbestr : otsuBestAt (histOf im) (im.width * im.height) r := by
        refine ⟨hrcand, ?_⟩
        intro u hu hcu
        have humem : u ∈ candList (histOf im) (im.width * im.height) :=
          List.mem_filter.mpr ⟨List.mem_range.mpr hu, by simpa using hcu⟩
        have hcode := hmax u humem
        rw [specVar_scale _ _ _ hTne, specVar_scale _ _ _ hTne]
        exact (div_le_div_iff_of_pos_right hT2).mpr hcode
      have hminr : ∀ t < r, ¬ otsuBestAt (histOf im) (im.width * im.height) t := by
        intro t htr hbt
        by_cases hct : otsuCand (histOf im) (im.width * im.height) t
        · have htmem : t ∈ candList (histOf im) (im.width * im.height) :=
            List.mem_filter.mpr ⟨List.mem_range.mpr (lt_trans htr hr256), by simpa using hct⟩
          have hltv := hfirst t htmem htr
          have hge := hbt.2 r hr256 hrcand
          rw [specVar_scale _ _ _ hTne, specVar_scale _ _ _ hTne] at hge
          have := (div_le_div_iff_of_pos_right hT2).mp hge
          linarith
        · exact hct hbt.1
      unfold otsuSpec
      rw [find?_range_eq_some _ 256 r hr256 (by simpa using hbestr)
        (fun t ht => by simpa using hminr t ht)]
      rfl

/-- On a valid image the returned threshold is at most 254: bin 255 is
never a candidate because its foreground class is empty. -/
lemma otsu_le_254 (im : Gray) (hv : im.Valid) : calculate_otsu_threshold im ≤ 254 := by
  rw [otsu_char im hv]
  unfold otsuSpec
  cases hfind : (List.range 256).find?
      (fun t => decide (otsuBestAt (histOf im) (im.width * im.height) t)) with
  | none => simp
  | some r =>
    have hbest : otsuBestAt (histOf im) (im.width * im.height) r := by
      simpa using List.find?_some hfind
    have hmono : preCum (histOf im) 256 ≤ preCum (histOf im) (r + 1) ∨ r ≤ 254 := by
      by_cases h : r ≤ 254
      · exact Or.inr h
      · exact Or.inl (preCum_mono _ (by omega))
    rcases hmono with hmono | hle
    · have htot := hist_total im hv
      exact absurd (by omega) hbest.1.2
    · simpa using hle

lemma otsu_imgC1_eq : calculate_otsu_threshold imgC1 = 50 := by
  rw [calculate_otsu_eq_otsuZ]
  have h1 : imgC1.width * imgC1.height = 2000 := rfl
  rw [histOf_imgC1, h1]
  have h2 : wsumList histC1fun = 250000 := by decide
  rw [h2]
  decide

lemma flat_hist (im : Gray) (c : ℕ)
    (hflat : ∀ x < im.width, ∀ y < im.height, im.g x y = c) (i : ℕ) :
    histOf im i = if c = i then im.width * im.height else 0 := by
  unfold histOf
  have hrow : ∀ x ∈ Finset.range im.width,
      (∑ y ∈ Finset.range im.height, if im.g x y = i then (1 : ℕ) else 0) =
        if c = i then im.height else 0 := by
    intro x hx
    have hcell : ∀ y ∈ Finset.range im.height,
        (if im.g x y = i then (1 : ℕ) else 0) = if c = i then 1 else 0 := by
      intro y hy
      rw [hflat x (Finset.mem_range.mp hx) y (Finset.mem_range.mp hy)]
    rw [Finset.sum_congr rfl hcell, Finset.sum_const, Finset.card_range, smul_eq_mul]
    by_cases hci : c = i <;> simp [hci]
  rw [Finset.sum_congr rfl hrow, Finset.sum_const, Finset.card_range, smul_eq_mul]
  by_cases hci : c = i <;> simp [hci]

lemma flat_preCum (im : Gray) (c : ℕ)
    (hflat : ∀ x < im.width, ∀ y < im.height, im.g x y = c) (a : ℕ) :
    preCum (histOf im) a = if c < a then im.width * im.height else 0 := by
  unfold preCum
  rw [Finset.sum_congr rfl fun i _ => flat_hist im c hflat i, Finset.sum_ite_eq]
  by_cases hca : c < a
  · rw [if_pos (Finset.mem_range.mpr hca), if_pos hca]
  · rw [if_neg (fun hmem => hca (Finset.mem_range.mp hmem)), if_neg hca]

/-- C2: `calculate_otsu_threshold` returns the smallest `t ∈ [0,255]`
achieving the maximum between-class variance with empty-class candidates
skipped, and in particular returns 0 on a flat image. -/
theorem claim_C2 (im : Gray) (hv : im.Valid) :
    calculate_otsu_threshold im = otsuSpec (histOf im) (im.width * im.height) ∧
    (∀ c : ℕ, (∀ x < im.width, ∀ y < im.height, im.g x y = c) →
      calculate_otsu_threshold im = 0) := by
  refine ⟨otsu_char im hv, ?_⟩
  intro c hflat
  rw [calculate_eq_foldCand im]
  have hnil : candList (histOf im) (im.width * im.height) = [] := by
    refine List.filter_eq_nil_iff.mpr ?_
    intro t _
    simp only [decide_eq_true_eq]
    intro hcand
    have hpc := flat_preCum im c hflat (t + 1)
    by_cases hct : c < t + 1
    · rw [if_pos hct] at hpc
      exact hcand.2 (by omega)
    · rw [if_neg hct] at hpc
      exact hcand.1 hpc
  rw [hnil]
  rfl

theorem claim_C2_witness :
    (Gray.mk 1 1 fun _ _ => 5).Valid ∧
      (calculate_otsu_threshold (Gray.mk 1 1 fun _ _ => 5) =
        otsuSpec (histOf (Gray.mk 1 1 fun _ _ => 5)) (1 * 1) ∧
      (∀ c : ℕ, (∀ x < 1, ∀ y < 1, (Gray.mk 1 1 fun _ _ => 5).g x y = c) →
        calculate_otsu_threshold (Gray.mk 1 1 fun _ _ => 5) = 0)) :=
  ⟨fun _ _ _ _ => by simp, claim_C2 (Gray.mk 1 1 fun _ _ => 5) fun _ _ _ _ => by simp⟩

/-- C1 as stated is false: on the 1000/1000 bimodal image at intensities 50
and 200 the returned threshold is exactly 50, not strictly greater. -/
theorem claim_C1_cex :
    ¬ (50 < calculate_otsu_threshold imgC1 ∧ calculate_otsu_threshold imgC1 < 200) := by
  rw [otsu_imgC1_eq]
  decide

/-- C1 amended: on the synthetic bimodal input (1000 pixels at 50, 1000 at
200) the returned threshold is at least 50 and strictly below 200 (it is
exactly 50, the lower mode, because ties break toward the smaller
threshold). -/
theorem claim_C1 :
    50 ≤ calculate_otsu_threshold imgC1 ∧ calculate_otsu_threshold imgC1 < 200 := by
  rw [otsu_imgC1_eq]
  decide

/-- C3 names the spec's required behaviour, and the code violates it: on a
6×6 buffer (width, height ≥ 3 but < 7) the sampling loops indeed take zero
samples, but the `samples` divisor evaluates to 0; the code divides
`0.0 / 0.0` and `.min(100.0)` collapses the resulting NaN to `100.0`, so
`noise_level` is reported as 100 rather than the required 0. -/
theorem claim_C3_bug :
    (noiseCoords 6).length = 0 ∧
    noiseSamplesDiv 6 6 = 0 ∧
    ∀ sq : ℚ → ℚ, noiseLevel sq (Gray.mk 6 6 fun _ _ => 0) = 100 := by
  refine ⟨by decide, by decide, ?_⟩
  intro sq
  unfold noiseLevel
  rw [if_pos (by decide)]

/-- C4 as stated is false: for a dark image (brightness level 50) and base
brightness 0.5 the derived brightness is the absolute constant 0.2, not
base + 0.2 = 0.7. -/
theorem claim_C4_cex :
    (adaptiveDerive metricsC4 baseC4).brightness ≠ baseC4.brightness + 1 / 5 := by
  norm_num [adaptiveDerive, deriveSharpness, deriveContrast, deriveNoise,
    deriveBrightness, deriveBinarization, metricsC4, baseC4]

/-- C4 amended: when the measured brightness level is below 80 the derived
parameters have brightness exactly 0.2, and when it is above 200 they have
brightness exactly -0.1 — absolute assignments, independent of the base
value. -/
theorem claim_C4 (m : ImageQualityMetrics) (base : ProcessingParams) :
    (m.brightness_level < 80 → (adaptiveDerive m base).brightness = 1 / 5) ∧
    (200 < m.brightness_level → (adaptiveDerive m base).brightness = -1 / 10) := by
  have h5 : ∀ p, (deriveBinarization m p).brightness = p.brightness := by
    intro p
    unfold deriveBinarization
    split_ifs <;> rfl
  constructor
  · intro h
    rw [adaptiveDerive, h5, deriveBrightness, if_pos h]
  · intro h
    have h80 : ¬ m.brightness_level < 80 := by linarith
    rw [adaptiveDerive, h5, deriveBrightness, if_neg h80, if_pos h]

theorem claim_C4_witness :
    (metricsC4.brightness_level < 80 ∧
      (adaptiveDerive metricsC4 baseC4).brightness = 1 / 5) ∧
    (200 < metricsC4b.brightness_level ∧
      (adaptiveDerive metricsC4b baseC4).brightness = -1 / 10) :=
  ⟨⟨by norm_num [metricsC4], (claim_C4 metricsC4 baseC4).1 (by norm_num [metricsC4])⟩,
   ⟨by norm_num [metricsC4b], (claim_C4 metricsC4b baseC4).2 (by norm_num [metricsC4b])⟩⟩

lemma lumaVal_diag (v : ℕ) : lumaVal v v v = v := by
  unfold lumaVal
  have h : 2126 * v + 7152 * v + 722 * v = 10000 * v := by ring
  rw [h]
  exact Nat.mul_div_cancel_left v (by norm_num)

lemma toLuma_grayToRgba (g : Gray) : toLuma (grayToRgba g) = g := by
  have hfun : (fun x y => lumaVal (g.g x y) (g.g x y) (g.g x y)) = g.g :=
    funext fun x => funext fun y => lumaVal_diag _
  show Gray.mk g.width g.height (fun x y => lumaVal (g.g x y) (g.g x y) (g.g x y)) = g
  rw [hfun]

lemma grayToRgba_pix (g : Gray) (x y : ℕ) :
    (grayToRgba g).pix x y = ⟨g.g x y, g.g x y, g.g x y, 255⟩ := rfl

lemma thresholdBin_binary (g : Gray) (t : ℕ) : (thresholdBin g t).Binary := by
  intro x y
  show (if t < g.g x y then (255 : ℕ) else 0) = 0 ∨ (if t < g.g x y then (255 : ℕ) else 0) = 255
  by_cases h : t < g.g x y <;> simp [h]

lemma sauvolaBinGray_binary (sq : ℚ → ℚ) (g : Gray) : (sauvolaBinGray sq g).Binary := by
  intro x y
  show (if sauvolaThreshAt sq g x y < (g.g x y : ℚ) then (255 : ℕ) else 0) = 0 ∨
    (if sauvolaThreshAt sq g x y < (g.g x y : ℚ) then (255 : ℕ) else 0) = 255
  by_cases h : sauvolaThreshAt sq g x y < (g.g x y : ℚ) <;> simp [h]

lemma adaptiveBinGray_binary (g : Gray) : (adaptiveBinGray g).Binary := by
  intro x y
  show (if winMean g x y < (g.g x y : ℚ) then (255 : ℕ) else 0) = 0 ∨
    (if winMean g x y < (g.g x y : ℚ) then (255 : ℕ) else 0) = 255
  by_cases h : winMean g x y < (g.g x y : ℚ) <;> simp [h]

lemma binary_pix (g : Gray) (hb : g.Binary) (x y : ℕ) :
    (grayToRgba g).pix x y = blackPix ∨ (grayToRgba g).pix x y = whitePix := by
  rcases hb x y with h | h
  · exact Or.inl (by rw [grayToRgba_pix, h]; rfl)
  · exact Or.inr (by rw [grayToRgba_pix, h]; rfl)

/-- C5: each of the four binarization operations succeeds and produces a
buffer whose every pixel is exactly (0,0,0,255) or (255,255,255,255). -/
theorem claim_C5 (im : Image) (sq : ℚ → ℚ) :
    (∃ o, apply_adaptive_threshold im = Except.ok o ∧
      ∀ x y, o.pix x y = blackPix ∨ o.pix x y = whitePix) ∧
    (∃ o, apply_otsu_threshold im = Except.ok o ∧
      ∀ x y, o.pix x y = blackPix ∨ o.pix x y = whitePix) ∧
    (∃ o, apply_mean_threshold im = Except.ok o ∧
      ∀ x y, o.pix x y = blackPix ∨ o.pix x y = whitePix) ∧
    (∃ o, apply_sauvola_threshold sq im = Except.ok o ∧
      ∀ x y, o.pix x y = blackPix ∨ o.pix x y = whitePix) :=
  ⟨⟨adaptiveImage im, rfl, fun x y => binary_pix _ (adaptiveBinGray_binary _) x y⟩,
   ⟨otsuImage im, rfl, fun x y => binary_pix _ (thresholdBin_binary _ _) x y⟩,
   ⟨meanImage im, rfl, fun x y => binary_pix _ (thresholdBin_binary _ _) x y⟩,
   ⟨sauvolaImage sq im, rfl, fun x y => binary_pix _ (sauvolaBinGray_binary _ _) x y⟩⟩

lemma binary_valid (g : Gray) (hb : g.Binary) : g.Valid := by
  intro x _ y _
  rcases hb x y with h | h <;> omega

lemma thresholdBin_fix (g : Gray) (t : ℕ) (hb : g.Binary) (ht : t ≤ 254) :
    thresholdBin g t = g := by
  have hfun : (fun x y => if t < g.g x y then (255 : ℕ) else 0) = g.g := by
    funext x y
    rcases hb x y with h | h <;> rw [h]
    · rw [if_neg (by omega)]
    · rw [if_pos (by omega)]
  show Gray.mk g.width g.height (fun x y => if t < g.g x y then (255 : ℕ) else 0) = g
  rw [hfun]

/-- A second mean-thresholding never sees an all-white binary buffer: the
first mean threshold leaves at least one pixel at 0. -/
lemma mean_idem_aux (g : Gray) (hwh : 0 < g.width * g.height) :
    meanOf (thresholdBin g (meanOf g)) ≤ 254 := by
  set m := meanOf g with hm
  have hex : ∃ x, x < g.width ∧ ∃ y, y < g.height ∧ g.g x y ≤ m := by
    by_contra hall
    push_neg at hall
    have hsum : (m + 1) * (g.width * g.height) ≤
        ∑ x ∈ Finset.range g.width, ∑ y ∈ Finset.range g.height, g.g x y := by
      calc (m + 1) * (g.width * g.height)
          = ∑ x ∈ Finset.range g.width, ∑ _y ∈ Finset.range g.height, (m + 1) := by
            rw [Finset.sum_const, Finset.sum_const, Finset.card_range, Finset.card_range]
            simp [Nat.mul_comm, Nat.mul_assoc, Nat.mul_left_comm]
        _ ≤ _ := by
            refine Finset.sum_le_sum fun x hx => Finset.sum_le_sum fun y hy => ?_
            exact hall x (Finset.mem_range.mp hx) y (Finset.mem_range.mp hy)
    have hdiv : m + 1 ≤ m := by
      have := (Nat.le_div_iff_mul_le hwh).mpr hsum
      rw [hm]
      exact this
    omega
  obtain ⟨x0, hx0, y0, hy0, hle⟩ := hex
  have hS : (∑ x ∈ Finset.range g.width, ∑ y ∈ Finset.range g.height,
      (thresholdBin g m).g x y) < 255 * (g.width * g.height) := by
    have houter : ∀ x ∈ Finset.range g.width,
        (∑ y ∈ Finset.range g.height, (thresholdBin g m).g x y) ≤ 255 * g.height := by
      intro x _
      calc ∑ y ∈ Finset.range g.height, (thresholdBin g m).g x y
          ≤ ∑ _y ∈ Finset.range g.height, 255 := by
            refine Finset.sum_le_sum fun y _ => ?_
            show (if m < g.g x y then (255 : ℕ) else 0) ≤ 255
            by_cases h : m < g.g x y <;> simp [h]
        _ = 255 * g.height := by
            rw [Finset.sum_const, Finset.card_range]
            ring
    have hx0strict : (∑ y ∈ Finset.range g.height, (thresholdBin g m).g x0 y) <
        255 * g.height := by
      have hy0strict : (thresholdBin g m).g x0 y0 < 255 := by
        show (if m < g.g x0 y0 then (255 : ℕ) else 0) < 255
        rw [if_neg (by omega)]
        omega
      calc ∑ y ∈ Finset.range g.height, (thresholdBin g m).g x0 y
          < ∑ _y ∈ Finset.range g.height, 255 := by
            refine Finset.sum_lt_sum (fun y _ => ?_) ⟨y0, Finset.mem_range.mpr hy0, hy0strict⟩
            show (if m < g.g x0 y then (255 : ℕ) else 0) ≤ 255
            by_cases h : m < g.g x0 y <;> simp [h]
        _ = 255 * g.height := by
            rw [Finset.sum_const, Finset.card_range]
            ring
    calc ∑ x ∈ Finset.range g.width, ∑ y ∈ Finset.range g.height, (thresholdBin g m).g x y
        < ∑ x ∈ Finset.range g.width, 255 * g.height :=
          Finset.sum_lt_sum houter ⟨x0, Finset.mem_range.mpr hx0, hx0strict⟩
      _ = 255 * (g.width * g.height) := by
          rw [Finset.sum_const, Finset.card_range]
          ring
  have : meanOf (thresholdBin g m) < 255 := by
    unfold meanOf
    exact (Nat.div_lt_iff_lt_mul hwh).mpr hS
  omega

lemma cardIcc7 : (Finset.Icc (-7 : ℤ) 7).card = 15 := by decide

lemma winSumN_le (g : Gray) (hb : g.Binary) (x y : ℕ) : winSumN g x y ≤ 225 * 255 := by
  unfold winSumN
  calc ∑ dy ∈ Finset.Icc (-7 : ℤ) 7, ∑ dx ∈ Finset.Icc (-7 : ℤ) 7,
        g.g (clampCoord ((x : ℤ) + dx) g.width) (clampCoord ((y : ℤ) + dy) g.height)
      ≤ ∑ _dy ∈ Finset.Icc (-7 : ℤ) 7, ∑ _dx ∈ Finset.Icc (-7 : ℤ) 7, 255 := by
        refine Finset.sum_le_sum fun dy _ => Finset.sum_le_sum fun dx _ => ?_
        rcases hb (clampCoord ((x : ℤ) + dx) g.width) (clampCoord ((y : ℤ) + dy) g.height)
          with h | h <;> omega
    _ = 225 * 255 := by
        rw [Finset.sum_const, Finset.sum_const, cardIcc7]
        norm_num

lemma winSqSumN_eq (g : Gray) (hb : g.Binary) (x y : ℕ) :
    winSqSumN g x y = 255 * winSumN g x y := by
  unfold winSqSumN winSumN
  rw [Finset.mul_sum]
  refine Finset.sum_congr rfl fun dy _ => ?_
  rw [Finset.mul_sum]
  refine Finset.sum_congr rfl fun dx _ => ?_
  rcases hb (clampCoord ((x : ℤ) + dx) g.width) (clampCoord ((y : ℤ) + dy) g.height)
    with h | h
  · rw [h]
    ring
  · rw [h]

lemma winMean_nonneg (g : Gray) (x y : ℕ) : 0 ≤ winMean g x y := by
  unfold winMean
  positivity

lemma winMean_le (g : Gray) (hb : g.Binary) (x y : ℕ) : winMean g x y ≤ 255 := by
  unfold winMean
  rw [div_le_iff₀ (by norm_num : (0 : ℚ) < 225)]
  have h := winSumN_le g hb x y
  have : (winSumN g x y : ℚ) ≤ ((225 * 255 : ℕ) : ℚ) := by exact_mod_cast h
  push_cast at this
  linarith

lemma winVar_eq (g : Gray) (hb : g.Binary) (x y : ℕ) :
    winVar g x y = winMean g x y * (255 - winMean g x y) := by
  unfold winVar winMean
  rw [winSqSumN_eq g hb x y]
  push_cast
  field_simp
  ring

lemma sauvolaThresh_bounds (sq : ℚ → ℚ) (hsq0 : ∀ q, 0 ≤ sq q)
    (hsq1 : ∀ q, 0 ≤ q → sq q * sq q ≤ q + 1) (g : Gray) (hb : g.Binary) (x y : ℕ) :
    0 ≤ sauvolaThreshAt sq g x y ∧ sauvolaThreshAt sq g x y < 255 := by
  have hm0 := winMean_nonneg g x y
  have hm255 := winMean_le g hb x y
  have hvar := winVar_eq g hb x y
  have hvar0 : 0 ≤ winVar g x y := by
    rw [hvar]
    nlinarith
  have hvar_le : winVar g x y ≤ 65029 / 4 := by
    rw [hvar]
    nlinarith [sq_nonneg (winMean g x y - 255 / 2)]
  have hs0 : 0 ≤ sq (winVar g x y) := hsq0 _
  have hs2 : sq (winVar g x y) * sq (winVar g x y) ≤ winVar g x y + 1 := hsq1 _ hvar0
  have hs128 : sq (winVar g x y) < 128 := by
    by_contra hge
    push_neg at hge
    have h1 : (128 : ℚ) * 128 ≤ sq (winVar g x y) * sq (winVar g x y) := by nlinarith
    linarith
  have hfac : 0 ≤ 1 + 1 / 2 * (sq (winVar g x y) / 128 - 1) := by linarith
  unfold sauvolaThreshAt
  constructor
  · exact mul_nonneg hm0 hfac
  · calc winMean g x y * (1 + 1 / 2 * (sq (winVar g x y) / 128 - 1))
        ≤ 255 * (1 + 1 / 2 * (sq (winVar g x y) / 128 - 1)) :=
          mul_le_mul_of_nonneg_right hm255 hfac
      _ < 255 := by linarith

lemma sauvolaBinGray_fix (sq : ℚ → ℚ) (hsq0 : ∀ q, 0 ≤ sq q)
    (hsq1 : ∀ q, 0 ≤ q → sq q * sq q ≤ q + 1) (g : Gray) (hb : g.Binary) :
    sauvolaBinGray sq g = g := by
  have hfun : (fun x y => if sauvolaThreshAt sq g x y < (g.g x y : ℚ) then (255 : ℕ) else 0) =
      g.g := by
    funext x y
    obtain ⟨hlo, hhi⟩ := sauvolaThresh_bounds sq hsq0 hsq1 g hb x y
    rcases hb x y with h | h <;> rw [h]
    · rw [if_neg]
      push_cast
      linarith
    · rw [if_pos]
      push_cast
      linarith
  show Gray.mk g.width g.height _ = g
  rw [hfun]

/-- C6 amended: the Otsu, mean, and Sauvola binarizations are idempotent
(the adaptive one is not, see the counterexample). -/
theorem claim_C6 (im : Image) (sq : ℚ → ℚ) (hwh : 0 < im.width * im.height)
    (hsq0 : ∀ q, 0 ≤ sq q) (hsq1 : ∀ q, 0 ≤ q → sq q * sq q ≤ q + 1) :
    (∃ o, apply_otsu_threshold im = Except.ok o ∧ apply_otsu_threshold o = Except.ok o) ∧
    (∃ o, apply_mean_threshold im = Except.ok o ∧ apply_mean_threshold o = Except.ok o) ∧
    (∃ o, apply_sauvola_threshold sq im = Except.ok o ∧
      apply_sauvola_threshold sq o = Except.ok o) := by
  refine ⟨⟨otsuImage im, rfl, ?_⟩, ⟨meanImage im, rfl, ?_⟩, ⟨sauvolaImage sq im, rfl, ?_⟩⟩
  · have step : otsuImage (otsuImage im) = otsuImage im := by
      unfold otsuImage
      rw [toLuma_grayToRgba]
      rw [thresholdBin_fix _ _ (thresholdBin_binary _ _)
        (otsu_le_254 _ (binary_valid _ (thresholdBin_binary _ _)))]
    exact congrArg Except.ok step
  · have step : meanImage (meanImage im) = meanImage im := by
      unfold meanImage
      rw [toLuma_grayToRgba]
      rw [thresholdBin_fix _ _ (thresholdBin_binary _ _) (mean_idem_aux (toLuma im) hwh)]
    exact congrArg Except.ok step
  · have step : sauvolaImage sq (sauvolaImage sq im) = sauvolaImage sq im := by
      unfold sauvolaImage
      rw [toLuma_grayToRgba]
      rw [sauvolaBinGray_fix sq hsq0 hsq1 _ (sauvolaBinGray_binary sq (toLuma im))]
    exact congrArg Except.ok step

/-- The adaptive classification in integer form: black exactly when
`225 * v ≤ window sum`. -/
lemma adaptiveBinGray_g (g : Gray) (x y : ℕ) :
    (adaptiveBinGray g).g x y =
      if 225 * g.g x y ≤ winSumN g x y then 0 else 255 := by
  show (if winMean g x y < (g.g x y : ℚ) then (255 : ℕ) else 0) = _
  by_cases h : winMean g x y < (g.g x y : ℚ)
  · rw [if_pos h, if_neg]
    rw [winMean, div_lt_iff₀ (by norm_num : (0 : ℚ) < 225)] at h
    intro hc
    have hcQ : ((225 * g.g x y : ℕ) : ℚ) ≤ ((winSumN g x y : ℕ) : ℚ) := by exact_mod_cast hc
    push_cast at hcQ
    linarith
  · rw [if_neg h, if_pos]
    rw [winMean] at h
    have hle : (g.g x y : ℚ) ≤ (winSumN g x y : ℚ) / 225 := not_lt.mp h
    rw [le_div_iff₀ (by norm_num : (0 : ℚ) < 225)] at hle
    have : ((225 * g.g x y : ℕ) : ℚ) ≤ ((winSumN g x y : ℕ) : ℚ) := by
      push_cast
      linarith
    exact_mod_cast this

lemma toLuma_imgC6 : toLuma imgC6 = gC6 := by
  have hfun : (fun x y => lumaVal (imgC6.pix x y).r (imgC6.pix x y).g (imgC6.pix x y).b) =
      gC6.g := by
    funext x y
    show lumaVal (vC6 x) (vC6 x) (vC6 x) = vC6 x
    exact lumaVal_diag _
  show Gray.mk imgC6.width imgC6.height _ = gC6
  rw [hfun]
  rfl

lemma clampCoord_15 (dx : ℤ) (hdx : dx ∈ Finset.Icc (-7 : ℤ) 7) :
    clampCoord ((0 : ℤ) + dx) 15 < 8 := by
  have h := Finset.mem_Icc.mp hdx
  unfold clampCoord
  omega

lemma clampCoord_1 (dy : ℤ) : clampCoord ((0 : ℤ) + dy) 1 = 0 := by
  unfold clampCoord
  omega

/-- After one adaptive pass over `imgC6`, the first eight pixels of the row
are white. -/
lemma adaptive_imgC6_white : ∀ x < 8, (adaptiveBinGray gC6).g x 0 = 255 := by
  intro x hx
  rw [adaptiveBinGray_g]
  interval_cases x <;> decide

/-- C6 as stated is false: applying the adaptive threshold twice to the
15×1 image `imgC6` flips pixel (0,0) from white to black, because the
first pass turns the whole window of (0,0) white and a pixel equal to its
window mean is classified black. -/
theorem claim_C6_cex :
    (adaptiveImage (adaptiveImage imgC6)).pix 0 0 ≠ (adaptiveImage imgC6).pix 0 0 := by
  have hL1 : toLuma imgC6 = gC6 := toLuma_imgC6
  have hL2 : toLuma (adaptiveImage imgC6) = adaptiveBinGray gC6 := by
    rw [adaptiveImage, toLuma_grayToRgba, hL1]
  have hwin2 : winSumN (adaptiveBinGray gC6) 0 0 = 225 * 255 := by
    unfold winSumN
    simp only [Nat.cast_zero]
    have hrow : ∀ dy ∈ Finset.Icc (-7 : ℤ) 7,
        (∑ dx ∈ Finset.Icc (-7 : ℤ) 7,
          (adaptiveBinGray gC6).g (clampCoord ((0 : ℤ) + dx) (adaptiveBinGray gC6).width)
            (clampCoord ((0 : ℤ) + dy) (adaptiveBinGray gC6).height)) = 15 * 255 := by
      intro dy _
      have hcell : ∀ dx ∈ Finset.Icc (-7 : ℤ) 7,
          (adaptiveBinGray gC6).g (clampCoord ((0 : ℤ) + dx) (adaptiveBinGray gC6).width)
            (clampCoord ((0 : ℤ) + dy) (adaptiveBinGray gC6).height) = 255 := by
        intro dx hdx
        have hw : (adaptiveBinGray gC6).width = 15 := rfl
        have hh : (adaptiveBinGray gC6).height = 1 := rfl
        rw [hw, hh, clampCoord_1]
        exact adaptive_imgC6_white _ (clampCoord_15 dx hdx)
      rw [Finset.sum_congr rfl hcell, Finset.sum_const, cardIcc7, smul_eq_mul]
    rw [Finset.sum_congr rfl hrow, Finset.sum_const, cardIcc7, smul_eq_mul]
  have hg2 : (adaptiveBinGray (adaptiveBinGray gC6)).g 0 0 = 0 := by
    rw [adaptiveBinGray_g, hwin2, adaptive_imgC6_white 0 (by norm_num)]
    rw [if_pos (le_refl _)]
  have h2 : (adaptiveImage (adaptiveImage imgC6)).pix 0 0 = blackPix := by
    show (grayToRgba (adaptiveBinGray (toLuma (adaptiveImage imgC6)))).pix 0 0 = blackPix
    rw [grayToRgba_pix, hL2, hg2]
    rfl
  have h1 : (adaptiveImage imgC6).pix 0 0 = whitePix := by
    show (grayToRgba (adaptiveBinGray (toLuma imgC6))).pix 0 0 = whitePix
    rw [grayToRgba_pix, hL1, adaptive_imgC6_white 0 (by norm_num)]
    rfl
  rw [h1, h2]
  decide

theorem claim_C6_witness :
    (0 < imW.width * imW.height ∧ (∀ q, 0 ≤ sqW q) ∧
      (∀ q, 0 ≤ q → sqW q * sqW q ≤ q + 1)) ∧
    ((∃ o, apply_otsu_threshold imW = Except.ok o ∧ apply_otsu_threshold o = Except.ok o) ∧
     (∃ o, apply_mean_threshold imW = Except.ok o ∧ apply_mean_threshold o = Except.ok o) ∧
     (∃ o, apply_sauvola_threshold sqW imW = Except.ok o ∧
       apply_sauvola_threshold sqW o = Except.ok o)) :=
  ⟨⟨by norm_num [imW], fun _ => le_refl 0, fun q hq => by
      show (0 : ℚ) * 0 ≤ q + 1
      linarith⟩,
   claim_C6 imW sqW (by norm_num [imW]) (fun _ => le_refl 0) (fun q hq => by
      show (0 : ℚ) * 0 ≤ q + 1
      linarith)⟩

lemma contentRow_iff (g : Gray) (y : ℕ) :
    (hThreshold g < hProj g y) ↔ specContentRow g y := by
  unfold hThreshold specContentRow
  rw [Nat.div_lt_iff_lt_mul (by norm_num : 0 < 10),
    div_lt_iff₀ (by norm_num : (0 : ℚ) < 10)]
  constructor
  · intro h
    have hq : ((g.width * 255 : ℕ) : ℚ) < ((hProj g y * 10 : ℕ) : ℚ) := by exact_mod_cast h
    push_cast at hq
    linarith
  · intro h
    have hq : ((g.width * 255 : ℕ) : ℚ) < ((hProj g y * 10 : ℕ) : ℚ) := by
      push_cast
      linarith
    exact_mod_cast hq

lemma contentCol_iff (g : Gray) (x : ℕ) :
    (vThreshold g < vProj g x) ↔ specContentCol g x := by
  unfold vThreshold specContentCol
  rw [Nat.div_lt_iff_lt_mul (by norm_num : 0 < 10),
    div_lt_iff₀ (by norm_num : (0 : ℚ) < 10)]
  constructor
  · intro h
    have hq : ((g.height * 255 : ℕ) : ℚ) < ((vProj g x * 10 : ℕ) : ℚ) := by exact_mod_cast h
    push_cast at hq
    linarith
  · intro h
    have hq : ((g.height * 255 : ℕ) : ℚ) < ((vProj g x * 10 : ℕ) : ℚ) := by
      push_cast
      linarith
    exact_mod_cast hq

lemma find?_range_reverse_eq_some (p : ℕ → Bool) :
    ∀ n r, r < n → p r = true → (∀ t, r < t → t < n → p t = false) →
      (List.range n).reverse.find? p = some r := by
  intro n
  induction n with
  | zero =>
    intro r hr _ _
    exact absurd hr (by omega)
  | succ n ih =>
    intro r hr hp hmax
    rw [List.range_succ, List.reverse_append]
    simp only [List.reverse_singleton, List.singleton_append]
    by_cases hrn : r = n
    · subst hrn
      exact List.find?_cons_of_pos _ hp
    · have hpn : p n = false := hmax n (by omega) (by omega)
      rw [List.find?_cons_of_neg _ (by simp [hpn])]
      exact ih r (by omega) hp (fun t h1 h2 => hmax t h1 (by omega))

lemma firstIdx_spec (P : ℕ → Prop) [DecidablePred P] (n : ℕ)
    (hex : ∃ y, y < n ∧ P y) :
    (((List.range n).find? fun y => decide (P y)).getD 0 < n) ∧
    P (((List.range n).find? fun y => decide (P y)).getD 0) ∧
    ∀ y < ((List.range n).find? fun y => decide (P y)).getD 0, ¬ P y := by
  have hspec := Nat.find_spec hex
  have hmin : ∀ y < Nat.find hex, ¬ (y < n ∧ P y) := fun y hy => Nat.find_min hex hy
  have hfq : (List.range n).find? (fun y => decide (P y)) = some (Nat.find hex) := by
    refine find?_range_eq_some _ n (Nat.find hex) hspec.1 ?_ ?_
    · simp only [decide_eq_true_eq]
      exact hspec.2
    · intro t ht
      simp only [decide_eq_false_iff_not]
      intro hp
      exact hmin t ht ⟨by omega, hp⟩
  rw [hfq]
  simp only [Option.getD_some]
  exact ⟨hspec.1, hspec.2, fun y hy hp => hmin y hy ⟨by omega, hp⟩⟩

lemma lastIdx_spec (P : ℕ → Prop) [DecidablePred P] (n : ℕ)
    (hex : ∃ y, y < n ∧ P y) :
    (((List.range n).reverse.find? fun y => decide (P y)).getD (n - 1) < n) ∧
    P (((List.range n).reverse.find? fun y => decide (P y)).getD (n - 1)) ∧
    ∀ y, ((List.range n).reverse.find? fun y => decide (P y)).getD (n - 1) < y →
      y < n → ¬ P y := by
  obtain ⟨y0, hy0, hpy0⟩ := hex
  have hr_le : Nat.findGreatest P (n - 1) ≤ n - 1 := Nat.findGreatest_le _
  have hPr : P (Nat.findGreatest P (n - 1)) :=
    Nat.findGreatest_spec (by omega : y0 ≤ n - 1) hpy0
  have hgr : ∀ k, Nat.findGreatest P (n - 1) < k → k ≤ n - 1 → ¬ P k :=
    fun k hk hkb => Nat.findGreatest_is_greatest hk hkb
  have hfq : (List.range n).reverse.find? (fun y => decide (P y)) =
      some (Nat.findGreatest P (n - 1)) := by
    refine find?_range_reverse_eq_some _ n _ (by omega) ?_ ?_
    · simp only [decide_eq_true_eq]
      exact hPr
    · intro t h1 h2
      simp only [decide_eq_false_iff_not]
      exact hgr t h1 (by omega)
  rw [hfq]
  simp only [Option.getD_some]
  exact ⟨by omega, hPr, fun y hy1 hy2 => hgr y hy1 (by omega)⟩

lemma area_iff (im : Image) (a : ℕ) :
    (im.width * im.height * 95 / 100 < a) ↔
      (95 : ℚ) / 100 * ((im.width * im.height : ℕ) : ℚ) < (a : ℚ) := by
  rw [Nat.div_lt_iff_lt_mul (by norm_num : 0 < 100)]
  rw [div_mul_eq_mul_div, div_lt_iff₀ (by norm_num : (0 : ℚ) < 100)]
  constructor
  · intro h
    have hq : ((im.width * im.height * 95 : ℕ) : ℚ) < ((a * 100 : ℕ) : ℚ) := by exact_mod_cast h
    push_cast at hq ⊢
    linarith
  · intro h
    push_cast at h
    have hq : ((im.width * im.height * 95 : ℕ) : ℚ) < ((a * 100 : ℕ) : ℚ) := by
      push_cast
      linarith
    exact_mod_cast hq

lemma lumaVal_le (r g b : ℕ) (hr : r ≤ 255) (hg : g ≤ 255) (hb : b ≤ 255) :
    lumaVal r g b ≤ 255 := by
  unfold lumaVal
  have h : 2126 * r + 7152 * g + 722 * b ≤ 2550000 := by omega
  calc (2126 * r + 7152 * g + 722 * b) / 10000 ≤ 2550000 / 10000 :=
        Nat.div_le_div_right h
    _ = 255 := by norm_num

lemma toLuma_valid (im : Image) (hv : im.Valid) : (toLuma im).Valid := by
  intro x hx y hy
  obtain ⟨h1, h2, h3, _⟩ := hv x hx y hy
  exact lumaVal_le _ _ _ h1 h2 h3

lemma hProj_le (g : Gray) (hg : g.Valid) (y : ℕ) (hy : y < g.height) :
    hProj g y ≤ g.width * 255 := by
  unfold hProj
  calc ∑ x ∈ Finset.range g.width, g.g x y
      ≤ ∑ _x ∈ Finset.range g.width, 255 :=
        Finset.sum_le_sum fun x hx => hg x (Finset.mem_range.mp hx) y hy
    _ = g.width * 255 := by rw [Finset.sum_const, Finset.card_range, smul_eq_mul]

lemma vProj_le (g : Gray) (hg : g.Valid) (x : ℕ) (hx : x < g.width) :
    vProj g x ≤ g.height * 255 := by
  unfold vProj
  calc ∑ y ∈ Finset.range g.height, g.g x y
      ≤ ∑ _y ∈ Finset.range g.height, 255 :=
        Finset.sum_le_sum fun y hy => hg x hx y (Finset.mem_range.mp hy)
    _ = g.height * 255 := by rw [Finset.sum_const, Finset.card_range, smul_eq_mul]

lemma hProj32_eq (g : Gray) (hg : g.Valid) (hw : g.width * 255 < 2 ^ 32) (y : ℕ)
    (hy : y < g.height) : hProj32 g y = hProj g y := by
  unfold hProj32
  exact Nat.mod_eq_of_lt (lt_of_le_of_lt (hProj_le g hg y hy) hw)

lemma vProj32_eq (g : Gray) (hg : g.Valid) (hh : g.height * 255 < 2 ^ 32) (x : ℕ)
    (hx : x < g.width) : vProj32 g x = vProj g x := by
  unfold vProj32
  exact Nat.mod_eq_of_lt (lt_of_le_of_lt (vProj_le g hg x hx) hh)

lemma hThreshold32_eq (g : Gray) (hw : g.width * 255 < 2 ^ 32) :
    hThreshold32 g = hThreshold g := by
  unfold hThreshold32 hThreshold
  rw [Nat.mod_eq_of_lt hw]

lemma vThreshold32_eq (g : Gray) (hh : g.height * 255 < 2 ^ 32) :
    vThreshold32 g = vThreshold g := by
  unfold vThreshold32 vThreshold
  rw [Nat.mod_eq_of_lt hh]

lemma contentRow32_iff (g : Gray) (hg : g.Valid) (hw : g.width * 255 < 2 ^ 32) (y : ℕ)
    (hy : y < g.height) :
    (hThreshold32 g < hProj32 g y) ↔ specContentRow g y := by
  rw [hProj32_eq g hg hw y hy, hThreshold32_eq g hw]
  exact contentRow_iff g y

lemma contentCol32_iff (g : Gray) (hg : g.Valid) (hh : g.height * 255 < 2 ^ 32) (x : ℕ)
    (hx : x < g.width) :
    (vThreshold32 g < vProj32 g x) ↔ specContentCol g x := by
  rw [vProj32_eq g hg hh x hx, vThreshold32_eq g hh]
  exact contentCol_iff g x

/-- C7 (amended): `remove_borders` either returns the input unchanged —
exactly when the candidate crop area exceeds the `u32`-computed
`width * height * 95 / 100`, whose multiplications wrap mod 2^32 (the
final conjunct shows this cutoff coincides with exact 95% of the area
precisely when `width * height * 95` does not wrap) — or crops to the
content bounding box (first/last row and column whose projection exceeds
10% of 255 times its length) expanded by a `max(dimension/50, 2)` margin
clamped to the buffer, as recorded in the `cropLeft/cropTop/cropRight/
cropBottom` definitions; stated for byte-valued buffers whose projection
sums and thresholds stay below 2^32. -/
theorem claim_C7 (im : Image) (hv : im.Valid)
    (hwb : im.width * 255 < 2 ^ 32) (hhb : im.height * 255 < 2 ^ 32)
    (hr : ∃ y < im.height, specContentRow (toLuma im) y)
    (hc : ∃ x < im.width, specContentCol (toLuma im) x) :
    (specContentRow (toLuma im) (topIdx (toLuma im)) ∧
      ∀ y < topIdx (toLuma im), ¬ specContentRow (toLuma im) y) ∧
    (specContentRow (toLuma im) (bottomIdx (toLuma im)) ∧
      ∀ y, bottomIdx (toLuma im) < y → y < im.height → ¬ specContentRow (toLuma im) y) ∧
    (specContentCol (toLuma im) (leftIdx (toLuma im)) ∧
      ∀ x < leftIdx (toLuma im), ¬ specContentCol (toLuma im) x) ∧
    (specContentCol (toLuma im) (rightIdx (toLuma im)) ∧
      ∀ x, rightIdx (toLuma im) < x → x < im.width → ¬ specContentCol (toLuma im) x) ∧
    (im.width * im.height % 2 ^ 32 * 95 % 2 ^ 32 / 100 <
        (cropRight (toLuma im) - cropLeft (toLuma im)) *
          (cropBottom (toLuma im) - cropTop (toLuma im)) % 2 ^ 32 →
      remove_borders im = im) ∧
    (¬ (im.width * im.height % 2 ^ 32 * 95 % 2 ^ 32 / 100 <
        (cropRight (toLuma im) - cropLeft (toLuma im)) *
          (cropBottom (toLuma im) - cropTop (toLuma im)) % 2 ^ 32) →
      remove_borders im =
        cropImm im (cropLeft (toLuma im)) (cropTop (toLuma im))
          (cropRight (toLuma im) - cropLeft (toLuma im))
          (cropBottom (toLuma im) - cropTop (toLuma im)) ∧
      remove_borders im ≠ im) ∧
    (im.width * im.height * 95 < 2 ^ 32 →
      (im.width * im.height % 2 ^ 32 * 95 % 2 ^ 32 / 100 <
          (cropRight (toLuma im) - cropLeft (toLuma im)) *
            (cropBottom (toLuma im) - cropTop (toLuma im)) % 2 ^ 32 ↔
        (95 : ℚ) / 100 * ((im.width * im.height : ℕ) : ℚ) <
          (((cropRight (toLuma im) - cropLeft (toLuma im)) *
            (cropBottom (toLuma im) - cropTop (toLuma im)) : ℕ) : ℚ))) := by
  have hgv : (toLuma im).Valid := toLuma_valid im hv
  have hw' : (toLuma im).width * 255 < 2 ^ 32 := hwb
  have hh' : (toLuma im).height * 255 < 2 ^ 32 := hhb
  have hrN : ∃ y, y < (toLuma im).height ∧
      hThreshold32 (toLuma im) < hProj32 (toLuma im) y := by
    obtain ⟨y, hy, hp⟩ := hr
    exact ⟨y, hy, (contentRow32_iff _ hgv hw' y hy).mpr hp⟩
  have hcN : ∃ x, x < (toLuma im).width ∧
      vThreshold32 (toLuma im) < vProj32 (toLuma im) x := by
    obtain ⟨x, hx, hp⟩ := hc
    exact ⟨x, hx, (contentCol32_iff _ hgv hh' x hx).mpr hp⟩
  have htop := firstIdx_spec (fun y => hThreshold32 (toLuma im) < hProj32 (toLuma im) y) _ hrN
  have hbot := lastIdx_spec (fun y => hThreshold32 (toLuma im) < hProj32 (toLuma im) y) _ hrN
  have hleft := firstIdx_spec (fun x => vThreshold32 (toLuma im) < vProj32 (toLuma im) x) _ hcN
  have hright := lastIdx_spec (fun x => vThreshold32 (toLuma im) < vProj32 (toLuma im) x) _ hcN
  refine ⟨⟨(contentRow32_iff _ hgv hw' _ htop.1).mp htop.2.1,
      fun y hy hp => htop.2.2 y hy
        ((contentRow32_iff _ hgv hw' y (lt_trans hy htop.1)).mpr hp)⟩,
    ⟨(contentRow32_iff _ hgv hw' _ hbot.1).mp hbot.2.1,
      fun y hy1 hy2 hp => hbot.2.2 y hy1 hy2 ((contentRow32_iff _ hgv hw' y hy2).mpr hp)⟩,
    ⟨(contentCol32_iff _ hgv hh' _ hleft.1).mp hleft.2.1,
      fun x hx hp => hleft.2.2 x hx
        ((contentCol32_iff _ hgv hh' x (lt_trans hx hleft.1)).mpr hp)⟩,
    ⟨(contentCol32_iff _ hgv hh' _ hright.1).mp hright.2.1,
      fun x hx1 hx2 hp => hright.2.2 x hx1 hx2 ((contentCol32_iff _ hgv hh' x hx2).mpr hp)⟩,
    ?_, ?_, ?_⟩
  · intro hbig
    rw [remove_borders, if_pos hbig]
  · intro hsmall
    refine ⟨by rw [remove_borders, if_neg hsmall], ?_⟩
    rw [remove_borders, if_neg hsmall]
    intro heq
    have hwlt : cropRight (toLuma im) - cropLeft (toLuma im) < im.width := by
      have h1 : cropRight (toLuma im) ≤ (toLuma im).width - 1 := min_le_right _ _
      have h2 : 0 < im.width := by
        obtain ⟨x, hx, _⟩ := hc
        omega
      have h3 : (toLuma im).width = im.width := rfl
      omega
    have := congrArg Image.width heq
    simp only [cropImm] at this
    omega
  · intro hnw
    have h1 : im.width * im.height < 2 ^ 32 :=
      lt_of_le_of_lt (le_mul_of_one_le_right (Nat.zero_le _) (by norm_num)) hnw
    have hcw : cropRight (toLuma im) - cropLeft (toLuma im) ≤ im.width := by
      have h2 : cropRight (toLuma im) ≤ (toLuma im).width - 1 := min_le_right _ _
      have h3 : (toLuma im).width = im.width := rfl
      omega
    have hch : cropBottom (toLuma im) - cropTop (toLuma im) ≤ im.height := by
      have h2 : cropBottom (toLuma im) ≤ (toLuma im).height - 1 := min_le_right _ _
      have h3 : (toLuma im).height = im.height := rfl
      omega
    have harea : (cropRight (toLuma im) - cropLeft (toLuma im)) *
        (cropBottom (toLuma im) - cropTop (toLuma im)) < 2 ^ 32 :=
      lt_of_le_of_lt (Nat.mul_le_mul hcw hch) h1
    rw [Nat.mod_eq_of_lt h1, Nat.mod_eq_of_lt hnw, Nat.mod_eq_of_lt harea]
    exact area_iff im _

theorem claim_C7_witness :
    (imW30.Valid ∧ imW30.width * 255 < 2 ^ 32 ∧ imW30.height * 255 < 2 ^ 32) ∧
    (∃ y < imW30.height, specContentRow (toLuma imW30) y) ∧
    (∃ x < imW30.width, specContentCol (toLuma imW30) x) ∧
    specContentRow (toLuma imW30) (topIdx (toLuma imW30)) := by
  have hval : imW30.Valid :=
    fun _ _ _ _ => ⟨le_refl 255, le_refl 255, le_refl 255, le_refl 255⟩
  have hwb : imW30.width * 255 < 2 ^ 32 := by norm_num [imW30]
  have hhb : imW30.height * 255 < 2 ^ 32 := by norm_num [imW30]
  have h1 : ∃ y < imW30.height, specContentRow (toLuma imW30) y :=
    ⟨0, by norm_num [imW30], (contentRow_iff _ _).mp (by decide)⟩
  have h2 : ∃ x < imW30.width, specContentCol (toLuma imW30) x :=
    ⟨0, by norm_num [imW30], (contentCol_iff _ _).mp (by decide)⟩
  exact ⟨⟨hval, hwb, hhb⟩, h1, h2, (claim_C7 imW30 hval hwb hhb h1 h2).1.1⟩

lemma toLuma_imC7 : toLuma imC7 = gC7 := by
  have hfun : (fun x y => lumaVal (imC7.pix x y).r (imC7.pix x y).g (imC7.pix x y).b) =
      gC7.g := by
    funext x y
    show lumaVal (vC7 x) (vC7 x) (vC7 x) = vC7 x
    exact lumaVal_diag _
  show Gray.mk imC7.width imC7.height _ = gC7
  rw [hfun]
  rfl

lemma hProj_gC7 (y : ℕ) : hProj gC7 y = 994500 := by
  have h : hProj gC7 y = ∑ x ∈ Finset.range 8000, vC7 x := rfl
  rw [h, Finset.range_eq_Ico,
    ← Finset.sum_Ico_consecutive (fun x => vC7 x) (Nat.zero_le 3900)
      (by norm_num : (3900 : ℕ) ≤ 8000)]
  have h1 : ∑ x ∈ Finset.Ico 0 3900, vC7 x = ∑ _x ∈ Finset.Ico (0 : ℕ) 3900, 255 :=
    Finset.sum_congr rfl fun x hx => by
      unfold vC7
      exact if_pos (Finset.mem_Ico.mp hx).2
  have h2 : ∑ x ∈ Finset.Ico 3900 8000, vC7 x = ∑ _x ∈ Finset.Ico (3900 : ℕ) 8000, 0 :=
    Finset.sum_congr rfl fun x hx => by
      unfold vC7
      exact if_neg (by have := (Finset.mem_Ico.mp hx).1; omega)
  rw [h1, h2, Finset.sum_const, Finset.sum_const, Nat.card_Ico, Nat.card_Ico]
  norm_num

lemma vProj_gC7 (x : ℕ) : vProj gC7 x = 6000 * vC7 x := by
  have h : vProj gC7 x = ∑ _y ∈ Finset.range 6000, vC7 x := rfl
  rw [h, Finset.sum_const, Finset.card_range, smul_eq_mul]

lemma hProj32_gC7 (y : ℕ) : hProj32 gC7 y = 994500 := by
  unfold hProj32
  rw [hProj_gC7]
  exact Nat.mod_eq_of_lt (by norm_num)

lemma vProj32_gC7 (x : ℕ) : vProj32 gC7 x = 6000 * vC7 x := by
  unfold vProj32
  rw [vProj_gC7]
  refine Nat.mod_eq_of_lt ?_
  unfold vC7
  split <;> norm_num

lemma hThreshold32_gC7 : hThreshold32 gC7 = 204000 := by
  show 8000 * 255 % 2 ^ 32 / 10 = 204000
  decide

lemma vThreshold32_gC7 : vThreshold32 gC7 = 153000 := by
  show 6000 * 255 % 2 ^ 32 / 10 = 153000
  decide

lemma topIdx_gC7 : topIdx gC7 = 0 := by
  unfold topIdx
  have hfind : (List.range gC7.height).find?
      (fun y => decide (hThreshold32 gC7 < hProj32 gC7 y)) = some 0 := by
    apply find?_range_eq_some
    · show 0 < gC7.height
      decide
    · refine decide_eq_true ?_
      rw [hThreshold32_gC7, hProj32_gC7]
      norm_num
    · intro t ht
      exact absurd ht (Nat.not_lt_zero t)
  rw [hfind]
  rfl

lemma bottomIdx_gC7 : bottomIdx gC7 = 5999 := by
  unfold bottomIdx
  have hfind : (List.range gC7.height).reverse.find?
      (fun y => decide (hThreshold32 gC7 < hProj32 gC7 y)) = some 5999 := by
    apply find?_range_reverse_eq_some
    · show 5999 < gC7.height
      decide
    · refine decide_eq_true ?_
      rw [hThreshold32_gC7, hProj32_gC7]
      norm_num
    · intro t h1 h2
      have h2' : t < 6000 := h2
      exact absurd h1 (by omega)
  rw [hfind]
  rfl

lemma leftIdx_gC7 : leftIdx gC7 = 0 := by
  unfold leftIdx
  have hfind : (List.range gC7.width).find?
      (fun x => decide (vThreshold32 gC7 < vProj32 gC7 x)) = some 0 := by
    apply find?_range_eq_some
    · show 0 < gC7.width
      decide
    · refine decide_eq_true ?_
      rw [vThreshold32_gC7, vProj32_gC7]
      unfold vC7
      norm_num
    · intro t ht
      exact absurd ht (Nat.not_lt_zero t)
  rw [hfind]
  rfl

lemma rightIdx_gC7 : rightIdx gC7 = 3899 := by
  unfold rightIdx
  have hfind : (List.range gC7.width).reverse.find?
      (fun x => decide (vThreshold32 gC7 < vProj32 gC7 x)) = some 3899 := by
    apply find?_range_reverse_eq_some
    · show 3899 < gC7.width
      decide
    · refine decide_eq_true ?_
      rw [vThreshold32_gC7, vProj32_gC7]
      unfold vC7
      norm_num
    · intro t h1 h2
      refine decide_eq_false ?_
      rw [vThreshold32_gC7, vProj32_gC7]
      have hv : vC7 t = 0 := by
        unfold vC7
        exact if_neg (by omega)
      rw [hv]
      norm_num
  rw [hfind]
  rfl

lemma crops_gC7 :
    cropLeft gC7 = 0 ∧ cropTop gC7 = 0 ∧ cropRight gC7 = 4059 ∧ cropBottom gC7 = 5999 := by
  refine ⟨?_, ?_, ?_, ?_⟩
  · unfold cropLeft
    rw [leftIdx_gC7]
    exact Nat.zero_sub _
  · unfold cropTop
    rw [topIdx_gC7]
    exact Nat.zero_sub _
  · unfold cropRight
    rw [rightIdx_gC7]
    show min (3899 + max (gC7.width / 50) 2) (gC7.width - 1) = 4059
    decide
  · unfold cropBottom
    rw [bottomIdx_gC7]
    show min (5999 + max (gC7.height / 50) 2) (gC7.height - 1) = 5999
    decide

/-- C7 as previously stated is false on large buffers: on this 48-megapixel
image the `u32` product `width * height * 95` wraps mod 2^32, the skip
threshold collapses from 45600000 to 2650327, and `remove_borders` returns
the buffer unchanged although the candidate crop area (24349941 pixels) is
well below — not above — 95% of the original area. -/
theorem claim_C7_cex :
    remove_borders imC7 = imC7 ∧
    ¬ ((95 : ℚ) / 100 * ((imC7.width * imC7.height : ℕ) : ℚ) <
        (((cropRight (toLuma imC7) - cropLeft (toLuma imC7)) *
          (cropBottom (toLuma imC7) - cropTop (toLuma imC7)) : ℕ) : ℚ)) := by
  obtain ⟨hcl, hct, hcr, hcb⟩ := crops_gC7
  constructor
  · rw [remove_borders, toLuma_imC7, hcl, hct, hcr, hcb]
    have hc : imC7.width * imC7.height % 2 ^ 32 * 95 % 2 ^ 32 / 100 <
        (4059 - 0) * (5999 - 0) % 2 ^ 32 := by decide
    rw [if_pos hc]
  · rw [toLuma_imC7, hcl, hct, hcr, hcb]
    show ¬ ((95 : ℚ) / 100 * (((8000 * 6000 : ℕ) : ℕ) : ℚ) <
        (((4059 - 0) * (5999 - 0) : ℕ) : ℚ))
    norm_num

lemma normalizeAngle_nat (t : ℕ) (ht : t < 180) :
    |normalizeAngle (t : ℚ)| ≤ 45 ∧
      (|normalizeAngle (t : ℚ)| < 45 ↔ t ≠ 45 ∧ t ≠ 135) := by
  unfold normalizeAngle
  by_cases h1 : (45 : ℚ) < (t : ℚ) ∧ (t : ℚ) < 135
  · rw [if_pos h1]
    have h45 : 45 < t := by exact_mod_cast h1.1
    have h135 : t < 135 := by exact_mod_cast h1.2
    have hlo : (46 : ℚ) ≤ (t : ℚ) := by exact_mod_cast h45
    have hhi : (t : ℚ) ≤ 134 := by exact_mod_cast Nat.le_of_lt_succ (by omega)
    constructor
    · rw [abs_le]
      constructor <;> linarith
    · have : |(t : ℚ) - 90| < 45 := by
        rw [abs_lt]
        constructor <;> linarith
      constructor
      · intro _
        omega
      · intro _
        exact this
  · rw [if_neg h1]
    by_cases h2 : (135 : ℚ) ≤ (t : ℚ)
    · rw [if_pos h2]
      have h135 : 135 ≤ t := by exact_mod_cast h2
      have hhi : (t : ℚ) ≤ 179 := by exact_mod_cast Nat.le_of_lt_succ (by omega)
      constructor
      · rw [abs_le]
        constructor <;> linarith
      · constructor
        · intro habs
          rw [abs_lt] at habs
          constructor
          · omega
          · intro hteq
            rw [hteq] at habs
            norm_num at habs
        · intro ⟨_, ht135⟩
          rw [abs_lt]
          have : (136 : ℚ) ≤ (t : ℚ) := by
            exact_mod_cast (by omega : 136 ≤ t)
          constructor <;> linarith
    · rw [if_neg h2]
      have hle : (t : ℚ) ≤ 45 := by
        by_contra hgt
        push_neg at hgt
        exact h1 ⟨hgt, by linarith [not_le.mp h2]⟩
      have h0 : (0 : ℚ) ≤ (t : ℚ) := Nat.cast_nonneg t
      have htle : t ≤ 45 := by exact_mod_cast hle
      constructor
      · rw [abs_le]
        constructor <;> linarith
      · constructor
        · intro habs
          rw [abs_lt] at habs
          constructor
          · intro hteq
            rw [hteq] at habs
            norm_num at habs
          · omega
        · intro ⟨ht45, _⟩
          rw [abs_lt]
          have : (t : ℚ) ≤ 44 := by
            exact_mod_cast (by omega : t ≤ 44)
          constructor <;> linarith

/-- C8 amended: each detected angle is normalized by subtracting 90° on
(45°,135°) and 180° at or above 135°; the normalized angles of in-range
detections lie in [-45°,45°] and an angle is discarded exactly when its
magnitude is at least 45° (equivalently, exactly for raw angles 45° and
135°); the input is returned unchanged when no lines are detected, no
angles survive, or the average surviving angle has magnitude below 0.5°. -/
theorem claim_C8 (lineDetect : Image → List ℕ) (rot : ℚ → RotScheme) (im : Image) :
    (∀ t : ℕ, t < 180 → |normalizeAngle (t : ℚ)| ≤ 45 ∧
      (|normalizeAngle (t : ℚ)| < 45 ↔ t ≠ 45 ∧ t ≠ 135)) ∧
    (∀ lines : List ℕ, ∀ a : ℚ, a ∈ skewAngles lines ↔
      (∃ t ∈ lines, normalizeAngle (t : ℚ) = a) ∧ |a| < 45) ∧
    (lineDetect im = [] → correct_skew lineDetect rot im = Except.ok im) ∧
    (skewAngles (lineDetect im) = [] → correct_skew lineDetect rot im = Except.ok im) ∧
    (|(skewAngles (lineDetect im)).sum / ((skewAngles (lineDetect im)).length : ℚ)| < 1 / 2 →
      correct_skew lineDetect rot im = Except.ok im) := by
  refine ⟨normalizeAngle_nat, ?_, ?_, ?_, ?_⟩
  · intro lines a
    unfold skewAngles
    constructor
    · intro hmem
      rw [List.mem_filter] at hmem
      obtain ⟨hm, hd⟩ := hmem
      rw [List.mem_map] at hm
      obtain ⟨t, ht, hft⟩ := hm
      refine ⟨⟨t, ht, hft⟩, ?_⟩
      rw [decide_eq_true_eq] at hd
      exact hd
    · rintro ⟨⟨t, ht, hft⟩, habs⟩
      rw [List.mem_filter]
      refine ⟨List.mem_map.mpr ⟨t, ht, hft⟩, ?_⟩
      rw [decide_eq_true_eq]
      exact habs
  · intro h
    rw [correct_skew, if_pos h]
  · intro h
    rw [correct_skew]
    by_cases h0 : lineDetect im = []
    · rw [if_pos h0]
    · rw [if_neg h0, if_pos h]
  · intro h
    rw [correct_skew]
    by_cases h0 : lineDetect im = []
    · rw [if_pos h0]
    · rw [if_neg h0]
      by_cases h1 : skewAngles (lineDetect im) = []
      · rw [if_pos h1]
      · rw [if_neg h1, if_pos h]

theorem claim_C8_witness :
    ((3 : ℕ) < 180 ∧
      |normalizeAngle ((3 : ℕ) : ℚ)| ≤ 45 ∧
        (|normalizeAngle ((3 : ℕ) : ℚ)| < 45 ↔ (3 : ℕ) ≠ 45 ∧ (3 : ℕ) ≠ 135)) ∧
    ((fun _ : Image => ([] : List ℕ)) imW = [] ∧
      correct_skew (fun _ => []) rotW imW = Except.ok imW) :=
  ⟨⟨by norm_num, (claim_C8 (fun _ => []) rotW imW).1 3 (by norm_num)⟩,
   ⟨rfl, (claim_C8 (fun _ => []) rotW imW).2.2.1 rfl⟩⟩

/-- C8 as stated is false at a detected line of exactly 45°: its
normalized angle has magnitude 45, which does not exceed 45, yet the code
discards it (and hence returns the input unchanged instead of rotating by
the claimed surviving average of 45°). -/
theorem claim_C8_cex :
    skewAngles [45] = [] ∧ ¬ (45 < |normalizeAngle ((45 : ℕ) : ℚ)|) ∧
      correct_skew (fun _ => [45]) rotW imW = Except.ok imW := by
  have hn : normalizeAngle ((45 : ℕ) : ℚ) = 45 := by
    unfold normalizeAngle
    norm_num
  have hs : skewAngles [45] = [] := by
    unfold skewAngles
    rw [List.map_cons, List.map_nil, hn]
    rw [List.filter_cons, if_neg (by norm_num), List.filter_nil]
  refine ⟨hs, by rw [hn]; norm_num, ?_⟩
  rw [correct_skew]
  rw [if_neg (by simp : ¬ ((fun _ : Image => [45]) imW = ([] : List ℕ))), if_pos hs]

lemma toU8_255 : toU8 (255 : ℚ) = 255 := by
  unfold toU8
  norm_num
  rfl

lemma sum_map_mul_const {α : Type} (l : List α) (f : α → ℚ) (c : ℚ) :
    (l.map fun s => f s * c).sum = (l.map f).sum * c := by
  induction l with
  | nil => simp
  | cons a t ih => simp [ih, add_mul]

lemma rotate_alpha (sch : RotScheme) (im : Image) (w h : ℕ)
    (hP : sch.Proper w h) (hA : AlphaOK im) :
    AlphaOK (rotateModel sch whitePix im) := by
  intro x y
  show toU8 (rotChan sch im Pix.a 255 x y) = 255
  unfold rotChan
  have h1 : ((sch.samples x y).map fun s => s.1 * ((Pix.a (im.pix s.2.1 s.2.2)) : ℚ)).sum =
      ((sch.samples x y).map fun s => s.1).sum * 255 := by
    rw [← sum_map_mul_const (sch.samples x y) (fun s => s.1) 255]
    congr 1
    apply List.map_congr_left
    intro s _
    rw [hA s.2.1 s.2.2]
    norm_num
  rw [h1]
  have h2 : ((sch.samples x y).map fun s => s.1).sum + sch.fillW x y = 1 := (hP x y).1
  have h3 : ((sch.samples x y).map fun s => s.1).sum * 255 +
      sch.fillW x y * (((255 : ℕ) : ℚ)) = 255 := by
    push_cast
    linarith
  rw [h3]
  exact toU8_255

lemma bilat_weight_pos (wfn : ℤ → ℤ → Pix → Pix → ℚ)
    (hw : ∀ dx dy p q, 0 < wfn dx dy p q) (im : Image) (x y : ℕ) :
    0 < bilatWeightSum wfn im x y := by
  unfold bilatWeightSum
  apply Finset.sum_pos
  · intro dy _
    apply Finset.sum_pos
    · intro dx _
      exact hw _ _ _ _
    · exact ⟨0, by simp⟩
  · exact ⟨0, by simp⟩

lemma bilat_alpha_sum (wfn : ℤ → ℤ → Pix → Pix → ℚ) (im : Image)
    (hA : AlphaOK im) (x y : ℕ) :
    bilatChanSum wfn im Pix.a x y = 255 * bilatWeightSum wfn im x y := by
  unfold bilatChanSum bilatWeightSum
  rw [Finset.mul_sum]
  apply Finset.sum_congr rfl
  intro dy _
  rw [Finset.mul_sum]
  apply Finset.sum_congr rfl
  intro dx _
  rw [hA]
  norm_num

lemma bilat_alpha (wfn : ℤ → ℤ → Pix → Pix → ℚ)
    (hw : ∀ dx dy p q, 0 < wfn dx dy p q) (im : Image) (hA : AlphaOK im) :
    AlphaOK (apply_bilateral_filter wfn im) := by
  intro x y
  show toU8 (bilatChanSum wfn im Pix.a x y / bilatWeightSum wfn im x y) = 255
  rw [bilat_alpha_sum wfn im hA x y, mul_div_assoc,
    div_self (ne_of_gt (bilat_weight_pos wfn hw im x y)), mul_one]
  exact toU8_255

lemma sharp_alpha (im : Image) (s : ℚ) (hA : AlphaOK im) :
    AlphaOK (adjust_sharpness im s) := by
  unfold adjust_sharpness
  split_ifs
  · exact hA
  · intro x y
    dsimp only
    split_ifs
    · rw [hA x y]
      unfold toU8
      norm_num
      rfl
    · exact hA x y

lemma skew_ok_alpha (ld : Image → List ℕ) (rot : ℚ → RotScheme) (im out : Image)
    (hrot : ∀ θ : ℚ, (rot θ).Proper im.width im.height)
    (hA : AlphaOK im) (h : correct_skew ld rot im = Except.ok out) : AlphaOK out := by
  unfold correct_skew at h
  split_ifs at h
  · injection h with h
    subst h
    exact hA
  · injection h with h
    subst h
    exact hA
  · injection h with h
    subst h
    exact hA
  · injection h with h
    subst h
    exact rotate_alpha _ im im.width im.height (hrot _) hA

lemma skew_proj_alpha (rotG rot : ℚ → RotScheme) (im out : Image)
    (hrot : ∀ θ : ℚ, (rot θ).Proper im.width im.height)
    (hA : AlphaOK im) (h : correct_skew_projection rotG rot im = Except.ok out) :
    AlphaOK out := by
  unfold correct_skew_projection at h
  split_ifs at h
  · injection h with h
    subst h
    exact hA
  · injection h with h
    subst h
    exact rotate_alpha _ im im.width im.height (hrot _) hA

/-- C9: if every pixel of the input has alpha 255, so does every pixel of
the output of each pipeline stage — border removal, line-based and
projection-based deskew (for proper rotation schemes), bilateral filter
(for strictly positive weight functions), Gaussian blur, brightness,
contrast, sharpness, histogram equalization, every morphology selection,
and every binarization selection. -/
theorem claim_C9 (ext : ExternalOps) (im : Image) (b c s sig : ℚ)
    (params : ProcessingParams) (hA : AlphaOK im)
    (hrot : ∀ θ : ℚ, (ext.rot θ).Proper im.width im.height)
    (hw : ∀ dx dy p q, 0 < ext.bilatW dx dy p q) :
    AlphaOK (remove_borders im) ∧
    (∀ out, correct_skew ext.lineDetect ext.rot im = Except.ok out → AlphaOK out) ∧
    (∀ out, correct_skew_projection ext.rotG ext.rot im = Except.ok out → AlphaOK out) ∧
    AlphaOK (apply_bilateral_filter ext.bilatW im) ∧
    AlphaOK (apply_gaussian_blur ext.blurC im sig) ∧
    AlphaOK (adjust_brightness im b) ∧
    AlphaOK (adjust_contrast im c) ∧
    AlphaOK (adjust_sharpness im s) ∧
    (∀ out, apply_clahe im = Except.ok out → AlphaOK out) ∧
    AlphaOK (morphStage params im) ∧
    (∀ out, binarizationStage ext params im = Except.ok out → AlphaOK out) := by
  refine ⟨?_, ?_, ?_, ?_, ?_, ?_, ?_, ?_, ?_, ?_, ?_⟩
  · unfold remove_borders
    split_ifs
    · exact hA
    · intro x y
      exact hA _ _
  · intro out h
    exact skew_ok_alpha ext.lineDetect ext.rot im out hrot hA h
  · intro out h
    exact skew_proj_alpha ext.rotG ext.rot im out hrot hA h
  · exact bilat_alpha ext.bilatW hw im hA
  · intro x y
    exact hA x y
  · intro x y
    exact hA x y
  · intro x y
    exact hA x y
  · exact sharp_alpha im s hA
  · intro out h
    unfold apply_clahe at h
    injection h with h
    subst h
    intro x y
    rfl
  · unfold morphStage
    split
    · intro x y
      rfl
    · intro x y
      rfl
    · intro x y
      rfl
    · intro x y
      rfl
    · exact hA
  · intro out h
    unfold binarizationStage at h
    split at h
    · unfold apply_adaptive_threshold at h
      injection h with h
      subst h
      intro x y
      rfl
    · unfold apply_otsu_threshold at h
      injection h with h
      subst h
      intro x y
      rfl
    · unfold apply_mean_threshold at h
      injection h with h
      subst h
      intro x y
      rfl
    · unfold apply_sauvola_threshold at h
      injection h with h
      subst h
      intro x y
      rfl
    · injection h with h
      subst h
      exact hA

/-- C9 witness: the hypotheses hold, and the conclusion follows, at the
concrete white 1×1 image with the fill-only rotation schemes and the
constant bilateral weight function. -/
theorem claim_C9_witness :
    (AlphaOK imW ∧ (∀ θ : ℚ, (extW.rot θ).Proper imW.width imW.height) ∧
      (∀ dx dy p q, 0 < extW.bilatW dx dy p q)) ∧
    (AlphaOK (remove_borders imW) ∧
      (∀ out, correct_skew extW.lineDetect extW.rot imW = Except.ok out → AlphaOK out) ∧
      (∀ out, correct_skew_projection extW.rotG extW.rot imW = Except.ok out → AlphaOK out) ∧
      AlphaOK (apply_bilateral_filter extW.bilatW imW) ∧
      AlphaOK (apply_gaussian_blur extW.blurC imW 1) ∧
      AlphaOK (adjust_brightness imW 0) ∧
      AlphaOK (adjust_contrast imW 1) ∧
      AlphaOK (adjust_sharpness imW 2) ∧
      (∀ out, apply_clahe imW = Except.ok out → AlphaOK out) ∧
      AlphaOK (morphStage baseC4 imW) ∧
      (∀ out, binarizationStage extW baseC4 imW = Except.ok out → AlphaOK out)) :=
  ⟨⟨fun _ _ => rfl,
    fun _ _ _ => ⟨by simp [extW, rotW], by simp [extW, rotW]⟩,
    fun _ _ _ _ => one_pos⟩,
   claim_C9 extW imW 0 1 2 1 baseC4 (fun _ _ => rfl)
     (fun _ _ _ => ⟨by simp [extW, rotW], by simp [extW, rotW]⟩)
     (fun _ _ _ _ => one_pos)⟩

lemma correct_skew_ok (ld : Image → List ℕ) (rot : ℚ → RotScheme) (im : Image) :
    ∃ o, correct_skew ld rot im = Except.ok o := by
  unfold correct_skew
  split_ifs <;> exact ⟨_, rfl⟩

lemma skew_proj_ok (rotG rot : ℚ → RotScheme) (im : Image) :
    ∃ o, correct_skew_projection rotG rot im = Except.ok o := by
  unfold correct_skew_projection
  split_ifs <;> exact ⟨_, rfl⟩

lemma skewStage_ok (ext : ExternalOps) (params : ProcessingParams) (im : Image) :
    ∃ o, skewStage ext params im = Except.ok o := by
  unfold skewStage
  split_ifs
  · exact skew_proj_ok ext.rotG ext.rot im
  · exact correct_skew_ok ext.lineDetect ext.rot im
  · exact ⟨im, rfl⟩

lemma claheStage_ok (params : ProcessingParams) (im : Image) :
    ∃ o, claheStage params im = Except.ok o := by
  unfold claheStage apply_clahe
  split_ifs <;> exact ⟨_, rfl⟩

lemma binarizationStage_ok (ext : ExternalOps) (params : ProcessingParams) (im : Image) :
    ∃ o, binarizationStage ext params im = Except.ok o := by
  unfold binarizationStage
  split <;> exact ⟨_, rfl⟩

/-- C10: for every input image and every parameter set (including
unrecognized binarization_method or morphology strings, which fall through
to no-ops), preprocess_image and adaptive_preprocess return the Ok
variant: every stage they invoke always returns success. -/
theorem claim_C10 (ext : ExternalOps) (im : Image) (params : ProcessingParams) :
    (∃ o, preprocess_image ext im params = Except.ok o) ∧
    (∃ o, adaptive_preprocess ext im params = Except.ok o) := by
  have key : ∀ p : ProcessingParams, ∃ o, preprocess_image ext im p = Except.ok o := by
    intro p
    obtain ⟨o1, h1⟩ := skewStage_ok ext p (if p.remove_borders then remove_borders im else im)
    obtain ⟨o2, h2⟩ := claheStage_ok p (filterToneStages ext p o1)
    obtain ⟨o3, h3⟩ := binarizationStage_ok ext p (morphStage p o2)
    refine ⟨o3, ?_⟩
    simp only [preprocess_image, h1, h2, h3]
  exact ⟨key params, key _⟩

end Theorems

end Imagio
